import Mathlib

/-! # secrets-cli: configuration persistence and directory layout

A shallow embedding of `internal/config/config.go`.

* Paths are strings with `/` as separator; `Join` and `Clean` follow Go's
  `path/filepath` on Unix.
* The filesystem is an explicit state: a table from absolute locations to
  nodes (regular files and directories with permission bits, symbolic
  links), a working directory and the process umask.  The calling process
  owns every node and is not the superuser, so the owner bits decide access.
  Strings are text: a Go string that is not valid UTF-8 is outside the model.
* `yaml.Marshal` / `yaml.Unmarshal` are split in two layers: the mapping
  between a record and a YAML document (driven by the struct tags of the
  source) and the textual layer between a document and bytes, which is a
  parameter (`YamlText`) about which nothing is assumed.
-/

namespace SecretsCli

/-! ## Path resolver (`path/filepath`, Unix) -/

/-- Split a character sequence at every `/`; the result is never empty. -/
def splitSlash : List Char → List (List Char)
  | [] => [[]]
  | c :: cs =>
    if c = '/' then [] :: splitSlash cs
    else match splitSlash cs with
      | [] => [[c]]
      | h :: t => (c :: h) :: t

/-- The elements of a path between its separators (empty elements kept). -/
def pathElems (p : String) : List String :=
  (splitSlash p.data).map String.mk

/-- Concatenate elements with a `/` between neighbours (`strings.Join(_, "/")`). -/
def joinSlash : List String → String
  | [] => ""
  | [e] => e
  | e :: es => e ++ "/" ++ joinSlash es

/-- Whether the path starts with a separator. -/
def isRooted (p : String) : Bool :=
  match p.data with
  | c :: _ => c = '/'
  | [] => false

/-- One round of the element loop of `filepath.Clean`; `out` holds the
elements kept so far, innermost first. -/
def cleanStep (rooted : Bool) (out : List String) (e : String) : List String :=
  if e = "" then out
  else if e = "." then out
  else if e = ".." then
    match out with
    | [] => if rooted then [] else [".."]
    | top :: rest => if top = ".." then ".." :: top :: rest else rest
  else e :: out

/-- The elements `filepath.Clean` keeps, outermost first. -/
def cleanElems (p : String) : List String :=
  ((pathElems p).foldl (cleanStep (isRooted p)) []).reverse

/-- Go's `filepath.Clean`. -/
def Clean (p : String) : String :=
  if isRooted p then "/" ++ joinSlash (cleanElems p)
  else if cleanElems p = [] then "."
  else joinSlash (cleanElems p)

/-- Go's `filepath.Join`: leading empty elements are dropped, the rest is
joined with `/` and cleaned; all elements empty gives the empty string. -/
def Join (elem : List String) : String :=
  match elem.dropWhile (fun e => e = "") with
  | [] => ""
  | e :: es => Clean (joinSlash (e :: es))

/-- The function `GetVaultDir` of the source. -/
def GetVaultDir (secretsDir vaultName : String) : String :=
  Join [secretsDir, "vaults", vaultName]

/-- The function `GetKeysDir` of the source. -/
def GetKeysDir (secretsDir : String) : String :=
  Join [secretsDir, "keys"]

/-- The path of the global config file, as computed by `LoadConfig` and `SaveConfig`. -/
def configPath (secretsDir : String) : String :=
  Join [secretsDir, "config.yaml"]

/-- The path of a vault config file, as computed by `LoadVaultConfig` and `SaveVaultConfig`. -/
def vaultConfigPath (vaultDir : String) : String :=
  Join [vaultDir, "vault.yaml"]

/-- The path of the vaults container, as computed by `ListVaults`. -/
def vaultsDirPath (secretsDir : String) : String :=
  Join [secretsDir, "vaults"]

/-- A name that is one path element: not empty, not `.` or `..`, no separator. -/
def SingleComponent (name : String) : Prop :=
  name ≠ "" ∧ name ≠ "." ∧ name ≠ ".." ∧ '/' ∉ name.data

instance (name : String) : Decidable (SingleComponent name) := by
  unfold SingleComponent; infer_instance

/-! ## Filesystem state -/

/-- Equality of results is decidable when it is for errors and values. -/
instance decEqExcept {ε α : Type} [DecidableEq ε] [DecidableEq α] :
    DecidableEq (Except ε α)
  | .ok a, .ok b =>
    if h : a = b then isTrue (by rw [h]) else isFalse (fun h2 => h (by cases h2; rfl))
  | .error a, .error b =>
    if h : a = b then isTrue (by rw [h]) else isFalse (fun h2 => h (by cases h2; rfl))
  | .ok _, .error _ => isFalse (fun h => by cases h)
  | .error _, .ok _ => isFalse (fun h => by cases h)

/-- The error numbers the operations of this module can meet. -/
inductive Errno
  | ENOENT
  | EACCES
  | ENOTDIR
  | EISDIR
  | EINVAL
  | ELOOP
  deriving DecidableEq, Repr

/-- A filesystem node: a regular file with its permission bits and content,
a directory with its permission bits, or a symbolic link with its target. -/
inductive Node (B : Type)
  | file (mode : Nat) (data : B)
  | dir (mode : Nat)
  | symlink (target : String)
  deriving DecidableEq, Repr

/-- Whether the node is a directory (`FileInfo.IsDir`, `DirEntry.IsDir`). -/
def Node.isDir {B : Type} : Node B → Bool
  | .file _ _ => false
  | .dir _ => true
  | .symlink _ => false

/-- A location: the names from the filesystem root down to a node. -/
abbrev Loc := List String

/-- An explicit filesystem state.  The binding of a location is the first
one in `nodes`. -/
structure FS (B : Type) where
  cwd : Loc
  umask : Nat
  nodes : List (Loc × Node B)

/-- The first binding of a location. -/
def lookupLoc {B : Type} : List (Loc × Node B) → Loc → Option (Node B)
  | [], _ => none
  | (k, n) :: rest, loc => if k = loc then some n else lookupLoc rest loc

/-- Owner read bit (0o400). -/
def ownerRead (mode : Nat) : Bool := mode / 256 % 2 = 1

/-- Owner write bit (0o200). -/
def ownerWrite (mode : Nat) : Bool := mode / 128 % 2 = 1

/-- Owner search/execute bit (0o100). -/
def ownerExec (mode : Nat) : Bool := mode / 64 % 2 = 1

/-- The mode a file is created with: the requested permission bits minus
those of the umask. -/
def createMode (perm umask : Nat) : Nat :=
  perm &&& (0o777 ^^^ (umask &&& 0o777))

/-- Follow one path element from a directory. -/
def stepLoc (cur : Loc) (c : String) : Loc :=
  if c = "." then cur
  else if c = ".." then cur.dropLast
  else cur ++ [c]

/-- The non-empty elements of a path. -/
def pathComps (p : String) : List String :=
  (pathElems p).filter (fun e => e ≠ "")

/-- The outcome of walking path elements up to the first symbolic link:
the location reached, a link to follow (where to go on from and with which
elements), or an error. -/
inductive Seg
  | done (loc : Loc)
  | link (cur : Loc) (comps : List String)
  | fail (e : Errno)
  deriving DecidableEq, Repr

/-- Walk the elements of a path from `cur` up to the first symbolic link:
every directory stepped through must exist, be a directory and be
searchable; an element that names a symbolic link is replaced by the
elements of its target, taken from the root when the target is rooted and
from the directory of the link otherwise.  The location reached is returned
whether or not a node exists there. -/
def walkSeg {B : Type} (fs : FS B) : Loc → List String → Seg
  | cur, [] => .done cur
  | cur, c :: rest =>
    match lookupLoc fs.nodes cur with
    | none => .fail .ENOENT
    | some (.file _ _) => .fail .ENOTDIR
    | some (.symlink _) => .fail .ENOTDIR
    | some (.dir mode) =>
      if ownerExec mode then
        match lookupLoc fs.nodes (stepLoc cur c) with
        | some (.symlink target) =>
          if target = "" then .fail .ENOENT
          else .link (if isRooted target then [] else cur) (pathComps target ++ rest)
        | _ => walkSeg fs (stepLoc cur c) rest
      else .fail .EACCES

/-- Walk the elements of a path, following at most `fuel` symbolic links;
the result carries the number of links that may still be followed. -/
def walkLinks {B : Type} (fs : FS B) : Nat → Loc → List String → Except Errno (Loc × Nat)
  | 0, cur, comps =>
    match walkSeg fs cur comps with
    | .done loc => .ok (loc, 0)
    | .link _ _ => .error .ELOOP
    | .fail e => .error e
  | fuel + 1, cur, comps =>
    match walkSeg fs cur comps with
    | .done loc => .ok (loc, fuel + 1)
    | .link cur2 comps2 => walkLinks fs fuel cur2 comps2
    | .fail e => .error e

/-- The number of symbolic links one path resolution may follow. -/
def maxSymlinks : Nat := 40

/-- Path resolution with the count of links still allowed: a NUL character
is rejected, the empty path does not exist, a rooted path starts at the root
and any other at the working directory. -/
def resolveFuel {B : Type} (fs : FS B) (path : String) : Except Errno (Loc × Nat) :=
  if (Char.ofNat 0) ∈ path.data then .error .EINVAL
  else if path = "" then .error .ENOENT
  else walkLinks fs maxSymlinks (if isRooted path then [] else fs.cwd) (pathComps path)

/-- Path resolution, following symbolic links also in the last element. -/
def resolve {B : Type} (fs : FS B) (path : String) : Except Errno Loc :=
  match resolveFuel fs path with
  | .ok (loc, _) => .ok loc
  | .error e => .error e

/-- The system call behind `os.Stat`. -/
def stat {B : Type} (fs : FS B) (path : String) : Except Errno (Node B) :=
  match resolve fs path with
  | .error e => .error e
  | .ok loc =>
    match lookupLoc fs.nodes loc with
    | none => .error .ENOENT
    | some n => .ok n

/-- The function `os.ReadFile`. -/
def readFile {B : Type} (fs : FS B) (path : String) : Except Errno B :=
  match resolve fs path with
  | .error e => .error e
  | .ok loc =>
    match lookupLoc fs.nodes loc with
    | none => .error .ENOENT
    | some (.symlink _) => .error .ELOOP
    | some (.dir mode) => if ownerRead mode then .error .EISDIR else .error .EACCES
    | some (.file mode data) => if ownerRead mode then .ok data else .error .EACCES

/-- The function `os.WriteFile` (open with create and truncate, then write):
an existing file keeps its mode and gets the new content, a missing file is
created in its parent directory with `createMode perm umask`. -/
def writeFile {B : Type} (fs : FS B) (path : String) (data : B) (perm : Nat) :
    Except Errno (FS B) :=
  match resolve fs path with
  | .error e => .error e
  | .ok loc =>
    match lookupLoc fs.nodes loc with
    | some (.symlink _) => .error .ELOOP
    | some (.dir _) => .error .EISDIR
    | some (.file mode _) =>
      if ownerWrite mode then .ok { fs with nodes := (loc, .file mode data) :: fs.nodes }
      else .error .EACCES
    | none =>
      match lookupLoc fs.nodes loc.dropLast with
      | none => .error .ENOENT
      | some (.file _ _) => .error .ENOTDIR
      | some (.symlink _) => .error .ENOTDIR
      | some (.dir pmode) =>
        if loc ≠ [] ∧ ownerWrite pmode ∧ ownerExec pmode then
          .ok { fs with nodes := (loc, .file (createMode perm fs.umask) data) :: fs.nodes }
        else .error .EACCES

/-- A directory entry as `os.ReadDir` reports it (`DirEntry.Name`, `DirEntry.IsDir`). -/
structure DirEntry where
  name : String
  isDir : Bool
  deriving DecidableEq, Repr

/-- A string that can name a directory entry. -/
def validName (n : String) : Bool :=
  n ≠ "" ∧ n ≠ "." ∧ n ≠ ".." ∧ '/' ∉ n.data ∧ (Char.ofNat 0) ∉ n.data

/-- The name under which `k` is an entry of the directory at `loc`, if it is one. -/
def childName (loc k : Loc) : Option String :=
  match k.reverse with
  | [] => none
  | n :: r => if r.reverse = loc ∧ validName n then some n else none

/-- Order of two names by their characters, as Go compares strings. -/
def nameLe : List Char → List Char → Bool
  | [], _ => true
  | _ :: _, [] => false
  | a :: as, b :: bs =>
    if a.toNat < b.toNat then true
    else if b.toNat < a.toNat then false
    else nameLe as bs

/-- Insert a name in a list sorted by `nameLe`. -/
def insertName (n : String) : List String → List String
  | [] => [n]
  | m :: ms => if nameLe n.data m.data then n :: m :: ms else m :: insertName n ms

/-- Sort names by `nameLe`. -/
def sortNames : List String → List String
  | [] => []
  | n :: ns => insertName n (sortNames ns)

/-- The names of the entries of the directory at `loc`, sorted, each once. -/
def entryNames {B : Type} (fs : FS B) (loc : Loc) : List String :=
  sortNames ((fs.nodes.filterMap (fun kn => childName loc kn.1)).dedup)

/-- The entries of the directory at `loc`, sorted by name, each with its type. -/
def entriesAt {B : Type} (fs : FS B) (loc : Loc) : List DirEntry :=
  (entryNames fs loc).map (fun n =>
    { name := n
      isDir := match lookupLoc fs.nodes (loc ++ [n]) with
        | some node => node.isDir
        | none => false })

/-- The function `os.ReadDir`: the entries of a directory sorted by name. -/
def readDir {B : Type} (fs : FS B) (path : String) : Except Errno (List DirEntry) :=
  match resolve fs path with
  | .error e => .error e
  | .ok loc =>
    match lookupLoc fs.nodes loc with
    | none => .error .ENOENT
    | some (.file _ _) => .error .ENOTDIR
    | some (.symlink _) => .error .ENOTDIR
    | some (.dir mode) =>
      if ownerRead mode then .ok (entriesAt fs loc) else .error .EACCES

/-! ## Records and their YAML documents -/

/-- A Go value of type `[]string`: `none` is the nil slice, `some xs` a
slice holding `xs` (possibly of length zero). -/
abbrev StrSlice := Option (List String)

/-- The elements of a slice; the nil slice has none. -/
def StrSlice.elems (s : StrSlice) : List String := s.getD []

/-- Go's `append(s, x)` at the capacity-free level of values. -/
def goAppend (s : StrSlice) (x : String) : StrSlice := some (s.elems ++ [x])

/-- The struct `Config` of the source. -/
structure Config where
  Version : String
  Owner : String
  deriving DecidableEq, Repr

/-- The struct `VaultConfig` of the source. -/
structure VaultConfig where
  Name : String
  Description : String
  Members : StrSlice
  CreatedAt : String
  UpdatedAt : String
  deriving DecidableEq, Repr

/-- An element of a YAML sequence: a null, a scalar with its text, or a
node of another kind (sequence, mapping). -/
inductive YamlItem
  | null
  | scalar (value : String)
  | other
  deriving DecidableEq, Repr

/-- The value of a key of the top-level mapping. -/
inductive YamlValue
  | null
  | scalar (value : String)
  | seq (items : List YamlItem)
  | other
  deriving DecidableEq, Repr

/-- A parsed YAML document as the struct decoder sees it: empty (no node,
or a null), a mapping with its scalar keys in document order once aliases
and merge keys (`<<`) have been resolved into plain entries, or a node of
another kind. -/
inductive YamlDoc
  | empty
  | map (entries : List (String × YamlValue))
  | other
  deriving DecidableEq, Repr

/-- Failures of the YAML library. -/
inductive YamlError
  | malformed
  | duplicateKey
  | wrongType
  deriving DecidableEq, Repr

/-- The textual layer of the YAML library, which is not part of the source:
`emit` writes the mapping an encoder produced as bytes, `parse` reads bytes
into the document the struct decoder sees (`none` for bytes from which no
document can be built).  Nothing is assumed about the two: whether bytes
that were written are read back as the same mapping is a property of the
value written (`ReadsBack`), which the library does not have for every
string. -/
structure YamlText (B : Type) where
  emit : List (String × YamlValue) → B
  parse : B → Option YamlDoc

/-- The mapping `yaml.Marshal` builds for a `Config`: both fields, in
declaration order, under their tag names. -/
def encodeConfig (cfg : Config) : List (String × YamlValue) :=
  [("version", .scalar cfg.Version), ("owner", .scalar cfg.Owner)]

/-- The mapping `yaml.Marshal` builds for a `VaultConfig`: the fields in
declaration order under their tag names, an `omitempty` field left out when
it is the empty string, a nil slice written as the empty sequence. -/
def encodeVaultConfig (cfg : VaultConfig) : List (String × YamlValue) :=
  [("name", .scalar cfg.Name)]
    ++ (if cfg.Description = "" then [] else [("description", .scalar cfg.Description)])
    ++ [("members", .seq (cfg.Members.elems.map YamlItem.scalar))]
    ++ [("created_at", .scalar cfg.CreatedAt)]
    ++ (if cfg.UpdatedAt = "" then [] else [("updated_at", .scalar cfg.UpdatedAt)])

/-- The first value of a key in a mapping. -/
def lookupKey : List (String × YamlValue) → String → Option YamlValue
  | [], _ => none
  | (k, v) :: rest, key => if k = key then some v else lookupKey rest key

/-- Decode the value of a key into a `string` field: an absent key or a null
leaves the zero value, any scalar gives its text, other nodes are rejected. -/
def decodeString : Option YamlValue → Except YamlError String
  | none => .ok ""
  | some .null => .ok ""
  | some (.scalar s) => .ok s
  | some (.seq _) => .error .wrongType
  | some .other => .error .wrongType

/-- Decode the items of a sequence into strings: nulls are skipped, scalars
give their text, other nodes are rejected. -/
def decodeItems : List YamlItem → Except YamlError (List String)
  | [] => .ok []
  | .null :: rest => decodeItems rest
  | .scalar s :: rest =>
    match decodeItems rest with
    | .ok xs => .ok (s :: xs)
    | .error e => .error e
  | .other :: _ => .error .wrongType

/-- Decode the value of a key into a `[]string` field: an absent key or a
null leaves nil, a sequence gives a fresh slice of its strings. -/
def decodeStrings : Option YamlValue → Except YamlError StrSlice
  | none => .ok none
  | some .null => .ok none
  | some (.seq items) =>
    match decodeItems items with
    | .ok xs => .ok (some xs)
    | .error e => .error e
  | some (.scalar _) => .error .wrongType
  | some .other => .error .wrongType

/-- Decode a document into a `Config`: the empty document leaves the zero
value, a mapping (merge keys already resolved, see `YamlDoc`) must have no
repeated key and fills the fields by tag name (unknown keys are ignored),
any other node is rejected. -/
def decodeConfig : YamlDoc → Except YamlError Config
  | .empty => .ok { Version := "", Owner := "" }
  | .other => .error .wrongType
  | .map entries =>
    if (entries.map Prod.fst).Nodup then
      match decodeString (lookupKey entries "version"),
            decodeString (lookupKey entries "owner") with
      | .ok v, .ok o => .ok { Version := v, Owner := o }
      | _, _ => .error .wrongType
    else .error .duplicateKey

/-- Decode a document into a `VaultConfig`, as `decodeConfig`. -/
def decodeVaultConfig : YamlDoc → Except YamlError VaultConfig
  | .empty =>
    .ok { Name := "", Description := "", Members := none, CreatedAt := "", UpdatedAt := "" }
  | .other => .error .wrongType
  | .map entries =>
    if (entries.map Prod.fst).Nodup then
      match decodeString (lookupKey entries "name"),
            decodeString (lookupKey entries "description"),
            decodeStrings (lookupKey entries "members"),
            decodeString (lookupKey entries "created_at"),
            decodeString (lookupKey entries "updated_at") with
      | .ok n, .ok d, .ok m, .ok c, .ok u =>
        .ok { Name := n, Description := d, Members := m, CreatedAt := c, UpdatedAt := u }
      | _, _, _, _, _ => .error .wrongType
    else .error .duplicateKey

/-- The call `yaml.Marshal(cfg)` for a `Config`; it does not fail on this type. -/
def marshalConfig {B : Type} (Y : YamlText B) (cfg : Config) : Except YamlError B :=
  .ok (Y.emit (encodeConfig cfg))

/-- The call `yaml.Marshal(cfg)` for a `VaultConfig`; it does not fail on this type. -/
def marshalVaultConfig {B : Type} (Y : YamlText B) (cfg : VaultConfig) : Except YamlError B :=
  .ok (Y.emit (encodeVaultConfig cfg))

/-- The call `yaml.Unmarshal(data, &cfg)` into a fresh `Config`. -/
def unmarshalConfig {B : Type} (Y : YamlText B) (data : B) : Except YamlError Config :=
  match Y.parse data with
  | none => .error .malformed
  | some doc => decodeConfig doc

/-- The call `yaml.Unmarshal(data, &cfg)` into a fresh `VaultConfig`. -/
def unmarshalVaultConfig {B : Type} (Y : YamlText B) (data : B) :
    Except YamlError VaultConfig :=
  match Y.parse data with
  | none => .error .malformed
  | some doc => decodeVaultConfig doc

/-! ## Errors -/

/-- What an error of this module wraps: the path error of a failed file
operation or an error of the YAML library. -/
inductive Cause
  | path (name : String) (errno : Errno)
  | yaml (e : YamlError)
  deriving DecidableEq, Repr

/-- An error built by `fmt.Errorf("<msg>: %w", err)`. -/
structure WrappedError where
  msg : String
  cause : Cause
  deriving DecidableEq, Repr

/-- The test `os.IsNotExist(err)` on the error of a file operation. -/
def isNotExist (e : Errno) : Bool := e = .ENOENT

/-- The test `errors.Is(err, fs.ErrNotExist)` on an error of this module:
it looks through the wrapping of `fmt.Errorf` at the cause (which the older
`os.IsNotExist` does not do). -/
def WrappedError.isNotExist (e : WrappedError) : Bool :=
  match e.cause with
  | .path _ errno => errno = .ENOENT
  | .yaml _ => false

/-- The three kinds of failure of a load. -/
inductive LoadFailure
  | notFound
  | read
  | deserialization
  deriving DecidableEq, Repr

/-- The kind of failure a caller tells from an error of a load. -/
def WrappedError.kind (e : WrappedError) : LoadFailure :=
  match e.cause with
  | .path _ errno => if errno = .ENOENT then .notFound else .read
  | .yaml _ => .deserialization

/-! ## The operations of `config.go` -/

/-- The function `LoadConfig` of the source. -/
def LoadConfig {B : Type} (Y : YamlText B) (fs : FS B) (secretsDir : String) :
    Except WrappedError Config :=
  let path := Join [secretsDir, "config.yaml"]
  match readFile fs path with
  | .error err => .error ⟨"failed to read config", .path path err⟩
  | .ok data =>
    match unmarshalConfig Y data with
    | .error err => .error ⟨"failed to parse config", .yaml err⟩
    | .ok cfg => .ok cfg

/-- The function `SaveConfig` of the source; success returns the new state. -/
def SaveConfig {B : Type} (Y : YamlText B) (fs : FS B) (secretsDir : String) (cfg : Config) :
    Except WrappedError (FS B) :=
  let path := Join [secretsDir, "config.yaml"]
  match marshalConfig Y cfg with
  | .error err => .error ⟨"failed to serialize config", .yaml err⟩
  | .ok data =>
    match writeFile fs path data 0o644 with
    | .error err => .error ⟨"failed to write config", .path path err⟩
    | .ok fs2 => .ok fs2

/-- The function `LoadVaultConfig` of the source. -/
def LoadVaultConfig {B : Type} (Y : YamlText B) (fs : FS B) (vaultDir : String) :
    Except WrappedError VaultConfig :=
  let path := Join [vaultDir, "vault.yaml"]
  match readFile fs path with
  | .error err => .error ⟨"failed to read vault config", .path path err⟩
  | .ok data =>
    match unmarshalVaultConfig Y data with
    | .error err => .error ⟨"failed to parse vault config", .yaml err⟩
    | .ok cfg => .ok cfg

/-- The function `SaveVaultConfig` of the source; success returns the new state. -/
def SaveVaultConfig {B : Type} (Y : YamlText B) (fs : FS B) (vaultDir : String)
    (cfg : VaultConfig) : Except WrappedError (FS B) :=
  let path := Join [vaultDir, "vault.yaml"]
  match marshalVaultConfig Y cfg with
  | .error err => .error ⟨"failed to serialize vault config", .yaml err⟩
  | .ok data =>
    match writeFile fs path data 0o644 with
    | .error err => .error ⟨"failed to write vault config", .path path err⟩
    | .ok fs2 => .ok fs2

/-- The function `VaultExists` of the source. -/
def VaultExists {B : Type} (fs : FS B) (secretsDir vaultName : String) : Bool :=
  let vaultDir := Join [secretsDir, "vaults", vaultName]
  match stat fs vaultDir with
  | .ok info => info.isDir
  | .error _ => false

/-- The loop of `ListVaults`: append the name of every directory entry. -/
def collectVaults : StrSlice → List DirEntry → StrSlice
  | vaults, [] => vaults
  | vaults, entry :: rest =>
    if entry.isDir then collectVaults (goAppend vaults entry.name) rest
    else collectVaults vaults rest

/-- The function `ListVaults` of the source. -/
def ListVaults {B : Type} (fs : FS B) (secretsDir : String) :
    Except WrappedError StrSlice :=
  let vaultsDir := Join [secretsDir, "vaults"]
  match readDir fs vaultsDir with
  | .error err =>
    if isNotExist err then .ok (some [])
    else .error ⟨"failed to list vaults", .path vaultsDir err⟩
  | .ok entries => .ok (collectVaults none entries)

/-- A textual layer whose bytes are the documents themselves, with one
unreadable value; used to run the operations on concrete states.  It reads
back every mapping it wrote. -/
def plainText : YamlText (Option YamlDoc) where
  emit := fun entries => some (.map entries)
  parse := fun data => data

/-! ## Definitions used to state the properties -/

/-- The shape of the stack `filepath.Clean` keeps: plain elements above a
block of `..` that a rooted path never has. -/
def NormStack (rooted : Bool) : List String → Prop
  | [] => True
  | top :: rest =>
    (top ≠ "" ∧ top ≠ "." ∧ '/' ∉ top.data)
      ∧ (top = ".." → rooted = false ∧ ∀ e ∈ rest, e = "..")
      ∧ NormStack rooted rest

/-- The clean form of the path `<root>/<x>`: `x` directly under the cleaned
root, where a root that cleans to `.` or `/` contributes no element. -/
def underRoot (root x : String) : String :=
  if cleanElems root = [] then (if isRooted root then "/" ++ x else x)
  else Clean root ++ "/" ++ x

/-- Whether listing the vaults container under `root` shows a directory
entry named `name`. -/
def hasVaultDirEntry {B : Type} (fs : FS B) (root name : String) : Bool :=
  match readDir fs (vaultsDirPath root) with
  | .ok entries => decide (({ name := name, isDir := true } : DirEntry) ∈ entries)
  | .error _ => false

/-- Whether the entry `name` of the vaults container under `root` is a
symbolic link (what `os.Lstat` on it would report). -/
def isSymlinkEntry {B : Type} (fs : FS B) (root name : String) : Bool :=
  match resolve fs (vaultsDirPath root) with
  | .ok loc =>
    match lookupLoc fs.nodes (loc ++ [name]) with
    | some (.symlink _) => true
    | _ => false
  | .error _ => false

/-- The entries of the vaults container under `root`, whether or not the
process may list them; none when the container is not a directory. -/
def containerEntries {B : Type} (fs : FS B) (root : String) : List DirEntry :=
  match resolve fs (vaultsDirPath root) with
  | .ok loc =>
    match lookupLoc fs.nodes loc with
    | some (.dir _) => entriesAt fs loc
    | _ => []
  | .error _ => []

/-- Whether the vaults container under `root` is a directory the process may search. -/
def containerSearchable {B : Type} (fs : FS B) (root : String) : Bool :=
  match stat fs (vaultsDirPath root) with
  | .ok (.dir mode) => ownerExec mode
  | _ => false

/-- The scenario of the specification: under the working directory `/home`
the root `r` holds `vaults/alpha/`, `vaults/beta/` and the file
`vaults/readme.txt`. -/
def scenarioFS : FS (Option YamlDoc) :=
  { cwd := ["home"]
    umask := 0o022
    nodes := [
      ([], .dir 0o755),
      (["home"], .dir 0o755),
      (["home", "r"], .dir 0o755),
      (["home", "r", "vaults"], .dir 0o755),
      (["home", "r", "vaults", "beta"], .dir 0o700),
      (["home", "r", "vaults", "readme.txt"], .file 0o644 none),
      (["home", "r", "vaults", "alpha"], .dir 0o700)] }

/-- A state whose vaults container has mode 0444: it can be listed but not
searched. -/
def listOnlyFS : FS (Option YamlDoc) :=
  { cwd := ["home"]
    umask := 0o022
    nodes := [
      ([], .dir 0o755),
      (["home"], .dir 0o755),
      (["home", "r"], .dir 0o755),
      (["home", "r", "vaults"], .dir 0o444),
      (["home", "r", "vaults", "alpha"], .dir 0o700)] }

/-- A state whose vaults container has mode 0300: it can be searched but not
listed. -/
def searchOnlyFS : FS (Option YamlDoc) :=
  { cwd := ["home"]
    umask := 0o022
    nodes := [
      ([], .dir 0o755),
      (["home"], .dir 0o755),
      (["home", "r"], .dir 0o755),
      (["home", "r", "vaults"], .dir 0o300),
      (["home", "r", "vaults", "alpha"], .dir 0o700)] }

/-- A state whose vaults container holds the directory `alpha` and the
symbolic link `shared` to the directory `/srv/shared`. -/
def linkedFS : FS (Option YamlDoc) :=
  { cwd := ["home"]
    umask := 0o022
    nodes := [
      ([], .dir 0o755),
      (["srv"], .dir 0o755),
      (["srv", "shared"], .dir 0o755),
      (["home"], .dir 0o755),
      (["home", "r"], .dir 0o755),
      (["home", "r", "vaults"], .dir 0o755),
      (["home", "r", "vaults", "alpha"], .dir 0o700),
      (["home", "r", "vaults", "shared"], .symlink "/srv/shared")] }

/-- A state with an empty root `r` and umask zero. -/
def emptyRootFS : FS (Option YamlDoc) :=
  { cwd := ["home"]
    umask := 0
    nodes := [
      ([], .dir 0o755),
      (["home"], .dir 0o755),
      (["home", "r"], .dir 0o755)] }

/-- The mode of the global config file in the state a successful
`SaveConfig` leaves. -/
def savedConfigMode {B : Type} (Y : YamlText B) (fs : FS B) (d : String) (c : Config) :
    Option Nat :=
  match SaveConfig Y fs d c with
  | .ok fs2 =>
    match stat fs2 (configPath d) with
    | .ok (.file mode _) => some mode
    | _ => none
  | .error _ => none

/-- The mode of the vault config file in the state a successful
`SaveVaultConfig` leaves. -/
def savedVaultConfigMode {B : Type} (Y : YamlText B) (fs : FS B) (d : String)
    (v : VaultConfig) : Option Nat :=
  match SaveVaultConfig Y fs d v with
  | .ok fs2 =>
    match stat fs2 (vaultConfigPath d) with
    | .ok (.file mode _) => some mode
    | _ => none
  | .error _ => none

/-- How a load relates to its two steps: a failed read gives an error that
wraps the path error, of kind not-found exactly when the file does not exist
and of kind read otherwise; a failed decoding gives an error of kind
deserialization that wraps the YAML error; otherwise the decoded value is
returned. -/
def LoadClassified {B α : Type} (path : String) (rd : Except Errno B)
    (um : B → Except YamlError α) (res : Except WrappedError α) : Prop :=
  match rd with
  | .error errno =>
    ∃ e, res = .error e ∧ e.cause = .path path errno
      ∧ e.isNotExist = decide (errno = .ENOENT)
      ∧ e.kind = (if errno = .ENOENT then .notFound else .read)
  | .ok data =>
    match um data with
    | .error err =>
      ∃ e, res = .error e ∧ e.cause = .yaml err ∧ e.isNotExist = false
        ∧ e.kind = .deserialization
    | .ok cfg => res = .ok cfg

/-- A state whose global config file holds bytes that are not YAML, beside
a vault directory whose config file has mode 0000. -/
def brokenFS : FS (Option YamlDoc) :=
  { cwd := ["home"]
    umask := 0o022
    nodes := [
      ([], .dir 0o755),
      (["home"], .dir 0o755),
      (["home", "r"], .dir 0o755),
      (["home", "r", "config.yaml"], .file 0o644 none),
      (["home", "r", "vaults"], .dir 0o755),
      (["home", "r", "vaults", "alpha"], .dir 0o755),
      (["home", "r", "vaults", "alpha", "vault.yaml"], .file 0 none)] }

/-! ## Lemmas on paths -/

theorem splitSlash_ne_nil (cs : List Char) : splitSlash cs ≠ [] := by
  cases cs with
  | nil => simp [splitSlash]
  | cons c cs =>
    unfold splitSlash
    split
    · simp
    · split <;> simp

theorem splitSlash_append (xs ys : List Char) :
    splitSlash (xs ++ '/' :: ys) = splitSlash xs ++ splitSlash ys := by
  induction xs with
  | nil => simp [splitSlash]
  | cons c xs ih =>
    by_cases hc : c = '/'
    · simp [splitSlash, hc, ih]
    · have h1 := splitSlash_ne_nil xs
      cases hx : splitSlash xs with
      | nil => exact absurd hx h1
      | cons h t => simp [splitSlash, hc, ih, hx]

theorem splitSlash_of_not_mem (ys : List Char) (h : '/' ∉ ys) : splitSlash ys = [ys] := by
  induction ys with
  | nil => rfl
  | cons c cs ih =>
    have hc : c ≠ '/' := fun e => h (by simp [e])
    have hcs : '/' ∉ cs := fun e => h (by simp [e])
    simp [splitSlash, hc, ih hcs]

theorem pathElems_append (p n : String) (h : '/' ∉ n.data) :
    pathElems (p ++ "/" ++ n) = pathElems p ++ [n] := by
  have : (p ++ "/" ++ n).data = p.data ++ '/' :: n.data := by
    simp [String.data_append]
  simp [pathElems, this, splitSlash_append, splitSlash_of_not_mem _ h]

theorem isRooted_append (p q : String) (h : p ≠ "") : isRooted (p ++ q) = isRooted p := by
  unfold isRooted
  have hd : p.data ≠ [] := by
    intro e
    apply h
    cases p
    simp_all
  cases hp : p.data with
  | nil => exact absurd hp hd
  | cons c cs => simp [String.data_append, hp]

theorem cleanStep_single (rooted : Bool) (out : List String) (n : String)
    (h : SingleComponent n) : cleanStep rooted out n = n :: out := by
  obtain ⟨h1, h2, h3, _⟩ := h
  simp [cleanStep, h1, h2, h3]

theorem ne_empty_of_cleanElems (p : String) (h : cleanElems p ≠ []) : p ≠ "" := by
  intro e
  subst e
  exact h (by decide)

theorem cleanElems_append (p n : String) (hp : p ≠ "") (h : SingleComponent n) :
    cleanElems (p ++ "/" ++ n) = cleanElems p ++ [n] := by
  have hr : isRooted (p ++ "/" ++ n) = isRooted p := by
    rw [String.append_assoc, isRooted_append _ _ hp]
  unfold cleanElems
  rw [hr, pathElems_append _ _ h.2.2.2, List.foldl_append]
  simp [cleanStep_single _ _ _ h]

theorem joinSlash_append (es : List String) (n : String) (h : es ≠ []) :
    joinSlash (es ++ [n]) = joinSlash es ++ "/" ++ n := by
  induction es with
  | nil => exact absurd rfl h
  | cons e rest ih =>
    cases rest with
    | nil => simp [joinSlash]
    | cons e2 rest2 =>
      have := ih (by simp)
      simp only [List.cons_append] at this ⊢
      simp only [joinSlash, this, String.append_assoc]

/-- Cleaning a path extended by one plain element extends the cleaned path. -/
theorem Clean_append (p n : String) (hp : cleanElems p ≠ []) (h : SingleComponent n) :
    Clean (p ++ "/" ++ n) = Clean p ++ "/" ++ n := by
  have hne := ne_empty_of_cleanElems p hp
  have hr : isRooted (p ++ "/" ++ n) = isRooted p := by
    rw [String.append_assoc, isRooted_append _ _ hne]
  unfold Clean
  rw [hr, cleanElems_append p n hne h]
  by_cases hroot : isRooted p = true
  · simp only [hroot, if_true, joinSlash_append _ _ hp, String.append_assoc]
  · simp [hroot, hp, joinSlash_append _ _ hp]

theorem single_vaults : SingleComponent "vaults" := by decide

theorem cleanElems_vaults (root : String) (h : root ≠ "") :
    cleanElems (root ++ "/" ++ "vaults") ≠ [] := by
  rw [cleanElems_append root "vaults" h single_vaults]
  simp

theorem joinSlash_three (a b c : String) :
    joinSlash [a, b, c] = (a ++ "/" ++ b) ++ "/" ++ c := by
  simp [joinSlash, String.append_assoc]

/-- For a one-element name the vault directory is the vaults container
followed by a separator and the name. -/
theorem GetVaultDir_single (root name : String) (h : SingleComponent name) :
    GetVaultDir root name = vaultsDirPath root ++ "/" ++ name := by
  unfold GetVaultDir vaultsDirPath Join
  by_cases hr : root = ""
  · subst hr
    have h0 : cleanElems "vaults" ≠ [] := by decide
    have := Clean_append "vaults" name h0 h
    simpa [joinSlash] using this
  · have h0 := cleanElems_vaults root hr
    have := Clean_append (root ++ "/" ++ "vaults") name h0 h
    simp only [List.dropWhile, hr, decide_False, joinSlash_three]
    simpa [joinSlash] using this

theorem splitSlash_no_slash (cs : List Char) : ∀ e ∈ splitSlash cs, '/' ∉ e := by
  induction cs with
  | nil => simp [splitSlash]
  | cons c cs ih =>
    by_cases hc : c = '/'
    · intro e he
      simp only [splitSlash, hc, if_true, List.mem_cons] at he
      rcases he with rfl | he
      · simp
      · exact ih e he
    · cases hx : splitSlash cs with
      | nil => exact absurd hx (splitSlash_ne_nil cs)
      | cons h t =>
        rw [hx] at ih
        intro e he
        simp only [splitSlash, hc, if_false, hx, List.mem_cons] at he
        rcases he with rfl | he
        · have := ih h (by simp)
          simp only [List.mem_cons, not_or]
          exact ⟨fun e => hc e.symm, this⟩
        · exact ih e (by simp [he])

theorem pathElems_no_slash (p : String) : ∀ e ∈ pathElems p, '/' ∉ e.data := by
  intro e he
  simp only [pathElems, List.mem_map] at he
  obtain ⟨cs, hcs, rfl⟩ := he
  exact splitSlash_no_slash _ cs hcs

theorem cleanStep_norm (rooted : Bool) (out : List String) (e : String)
    (hout : NormStack rooted out) (he : '/' ∉ e.data) :
    NormStack rooted (cleanStep rooted out e) := by
  unfold cleanStep
  by_cases h1 : e = ""
  · simp [h1, hout]
  by_cases h2 : e = "."
  · simp [h2, hout]
  by_cases h3 : e = ".."
  · subst h3
    cases out with
    | nil =>
      cases rooted <;> simp [NormStack]
    | cons top rest =>
      by_cases ht : top = ".."
      · subst ht
        obtain ⟨_, hb, hc⟩ := hout
        have hb2 := hb rfl
        refine ⟨⟨by decide, by decide, by decide⟩, fun _ => ⟨hb2.1, ?_⟩, ⟨by decide, by decide, by decide⟩, hb, hc⟩
        intro e he
        simp only [List.mem_cons] at he
        rcases he with rfl | he
        · rfl
        · exact hb2.2 e he
      · simp [ht]
        exact hout.2.2
  · simp only [h1, h2, h3, if_false]
    exact ⟨⟨h1, h2, he⟩, fun h => absurd h h3, hout⟩

theorem foldl_cleanStep_norm (rooted : Bool) (es out : List String)
    (hout : NormStack rooted out) (hes : ∀ e ∈ es, '/' ∉ e.data) :
    NormStack rooted (es.foldl (cleanStep rooted) out) := by
  induction es generalizing out with
  | nil => exact hout
  | cons e rest ih =>
    simp only [List.foldl_cons]
    exact ih _ (cleanStep_norm rooted out e hout (hes e (by simp)))
      (fun x hx => hes x (by simp [hx]))

theorem foldl_cleanStep_replay (rooted : Bool) (out : List String)
    (hout : NormStack rooted out) :
    out.reverse.foldl (cleanStep rooted) [] = out := by
  induction out with
  | nil => rfl
  | cons top rest ih =>
    obtain ⟨⟨h1, h2, _⟩, hb, hc⟩ := hout
    rw [List.reverse_cons, List.foldl_append, ih hc]
    simp only [List.foldl_cons, List.foldl_nil]
    by_cases h3 : top = ".."
    · obtain ⟨hr, hall⟩ := hb h3
      subst h3
      cases rest with
      | nil => simp [cleanStep, hr]
      | cons t r =>
        have : t = ".." := hall t (by simp)
        simp [cleanStep, this]
    · simp [cleanStep, h1, h2, h3]

theorem cleanElems_norm (p : String) :
    NormStack (isRooted p) ((pathElems p).foldl (cleanStep (isRooted p)) []) :=
  foldl_cleanStep_norm _ _ _ trivial (pathElems_no_slash p)

theorem NormStack_no_slash (rooted : Bool) (out : List String) (h : NormStack rooted out) :
    ∀ e ∈ out, e ≠ "" ∧ '/' ∉ e.data := by
  induction out with
  | nil => simp
  | cons top rest ih =>
    intro e he
    simp only [List.mem_cons] at he
    rcases he with rfl | he
    · exact ⟨h.1.1, h.1.2.2⟩
    · exact ih h.2.2 e he

theorem pathElems_prepend (e s : String) (h : '/' ∉ e.data) :
    pathElems (e ++ "/" ++ s) = e :: pathElems s := by
  have : (e ++ "/" ++ s).data = e.data ++ '/' :: s.data := by
    simp [String.data_append]
  simp [pathElems, this, splitSlash_append, splitSlash_of_not_mem _ h]

theorem pathElems_joinSlash (es : List String) (hne : es ≠ [])
    (h : ∀ e ∈ es, '/' ∉ e.data) : pathElems (joinSlash es) = es := by
  induction es with
  | nil => exact absurd rfl hne
  | cons e rest ih =>
    cases rest with
    | nil =>
      simp [joinSlash, pathElems, splitSlash_of_not_mem _ (h e (by simp))]
    | cons e2 rest2 =>
      have h2 := ih (by simp) (fun x hx => h x (by simp [hx]))
      simp only [joinSlash] at h2 ⊢
      rw [pathElems_prepend _ _ (h e (by simp)), h2]

theorem isRooted_of_no_slash (e : String) (h : '/' ∉ e.data) : isRooted e = false := by
  unfold isRooted
  cases hd : e.data with
  | nil => rfl
  | cons c cs =>
    rw [hd] at h
    simp only [List.mem_cons, not_or] at h
    simp [Ne.symm h.1]

theorem isRooted_joinSlash (es : List String)
    (h : ∀ e ∈ es, e ≠ "" ∧ '/' ∉ e.data) : isRooted (joinSlash es) = false := by
  cases es with
  | nil => rfl
  | cons e rest =>
    have he := h e (by simp)
    cases rest with
    | nil => exact isRooted_of_no_slash e he.2
    | cons e2 rest2 =>
      simp only [joinSlash]
      rw [String.append_assoc, isRooted_append _ _ he.1]
      exact isRooted_of_no_slash e he.2

theorem pathElems_slash_prepend (s : String) : pathElems ("/" ++ s) = "" :: pathElems s := by
  have : ("/" ++ s).data = '/' :: s.data := by simp [String.data_append]
  simp [pathElems, this, splitSlash]

theorem cleanElems_reverse_norm (p : String) :
    NormStack (isRooted p) (cleanElems p).reverse := by
  unfold cleanElems
  rw [List.reverse_reverse]
  exact cleanElems_norm p

theorem cleanElems_props (p : String) : ∀ e ∈ cleanElems p, e ≠ "" ∧ '/' ∉ e.data := by
  intro e he
  exact NormStack_no_slash _ _ (cleanElems_reverse_norm p) e (by simpa using he)

theorem foldl_cleanElems (p : String) :
    (cleanElems p).foldl (cleanStep (isRooted p)) [] = (cleanElems p).reverse := by
  have := foldl_cleanStep_replay _ _ (cleanElems_reverse_norm p)
  rwa [List.reverse_reverse] at this

theorem isRooted_slash (s : String) : isRooted ("/" ++ s) = true := by
  have : ("/" ++ s).data = '/' :: s.data := by simp [String.data_append]
  simp [isRooted, this]

theorem isRooted_Clean (p : String) : isRooted (Clean p) = isRooted p := by
  unfold Clean
  by_cases hr : isRooted p = true
  · simp [hr, isRooted_slash]
  · simp only [hr]
    have hr2 : isRooted p = false := by simpa using hr
    by_cases he : cleanElems p = []
    · simp [he, hr2]; decide
    · simp [he, hr2, isRooted_joinSlash _ (cleanElems_props p)]

theorem cleanElems_Clean (p : String) : cleanElems (Clean p) = cleanElems p := by
  have hroot := isRooted_Clean p
  have hno : ∀ e ∈ cleanElems p, '/' ∉ e.data := fun e he => (cleanElems_props p e he).2
  have key : (pathElems (Clean p)).foldl (cleanStep (isRooted p)) [] = (cleanElems p).reverse := by
    unfold Clean
    by_cases hr : isRooted p = true
    · simp only [hr, if_true]
      rw [pathElems_slash_prepend]
      by_cases he : cleanElems p = []
      · simp [he, joinSlash]; decide
      · rw [pathElems_joinSlash _ he hno]
        have := foldl_cleanElems p
        rw [hr] at this
        simpa [cleanStep] using this
    · have hr2 : isRooted p = false := by simpa using hr
      by_cases he : cleanElems p = []
      · simp [he, hr2]; decide
      · simp only [hr2, he, if_false, Bool.false_eq_true]
        rw [pathElems_joinSlash _ he hno]
        have := foldl_cleanElems p
        rwa [hr2] at this
  conv_lhs => unfold cleanElems
  rw [hroot, key, List.reverse_reverse]

/-- The function `Clean` is idempotent. -/
theorem Clean_Clean (p : String) : Clean (Clean p) = Clean p := by
  have h : ∀ q, Clean q = if isRooted q then "/" ++ joinSlash (cleanElems q)
      else if cleanElems q = [] then "." else joinSlash (cleanElems q) := fun _ => rfl
  rw [h (Clean p), isRooted_Clean, cleanElems_Clean, ← h p]

theorem Join_pair (x n : String) (hx : cleanElems x ≠ []) (h : SingleComponent n) :
    Join [x, n] = Clean x ++ "/" ++ n := by
  have hne := ne_empty_of_cleanElems x hx
  have := Clean_append x n hx h
  simpa [Join, List.dropWhile, hne, joinSlash] using this

theorem vaultsDirPath_eq (root : String) :
    ∃ p, vaultsDirPath root = Clean p ∧ cleanElems p ≠ [] := by
  by_cases hr : root = ""
  · subst hr
    exact ⟨"vaults", by decide, by decide⟩
  · refine ⟨root ++ "/" ++ "vaults", ?_, cleanElems_vaults root hr⟩
    simp [vaultsDirPath, Join, List.dropWhile, hr, joinSlash]

theorem GetVaultDir_eq (root name : String) (h : SingleComponent name) :
    ∃ p, GetVaultDir root name = Clean p ∧ cleanElems p ≠ [] := by
  obtain ⟨q, hq, hqe⟩ := vaultsDirPath_eq root
  have hqne := ne_empty_of_cleanElems q hqe
  refine ⟨q ++ "/" ++ name, ?_, ?_⟩
  · rw [GetVaultDir_single root name h, hq, Clean_append q name hqe h]
  · rw [cleanElems_append q name hqne h]; simp

theorem single_vault_yaml : SingleComponent "vault.yaml" := by decide

/-- The config file of the vault directory of a one-element name. -/
theorem vaultConfigPath_GetVaultDir (root name : String) (h : SingleComponent name) :
    vaultConfigPath (GetVaultDir root name)
      = vaultsDirPath root ++ "/" ++ name ++ "/" ++ "vault.yaml" := by
  obtain ⟨p, hp, hpe⟩ := GetVaultDir_eq root name h
  have h1 : cleanElems (GetVaultDir root name) ≠ [] := by
    rw [hp, cleanElems_Clean]; exact hpe
  unfold vaultConfigPath
  rw [Join_pair _ _ h1 single_vault_yaml]
  rw [hp, Clean_Clean, ← hp, GetVaultDir_single root name h]

/-! ## Lemmas on the filesystem -/

theorem walkSeg_append {B : Type} (fs : FS B) (cur : Loc) (xs ys : List String) :
    walkSeg fs cur (xs ++ ys) =
      match walkSeg fs cur xs with
      | .done l => walkSeg fs l ys
      | .link c cs => .link c (cs ++ ys)
      | .fail e => .fail e := by
  induction xs generalizing cur with
  | nil => rfl
  | cons c rest ih =>
    simp only [List.cons_append, walkSeg]
    cases hl : lookupLoc fs.nodes cur with
    | none => rfl
    | some node =>
      cases node with
      | file m d => rfl
      | symlink t => rfl
      | dir m =>
        by_cases hx : ownerExec m = true
        · simp only [hx, if_true]
          cases hn : lookupLoc fs.nodes (stepLoc cur c) with
          | none => exact ih _
          | some node2 =>
            cases node2 with
            | file m2 d2 => exact ih _
            | dir m2 => exact ih _
            | symlink t =>
              by_cases ht : t = ""
              · simp [ht]
              · simp [ht, List.append_assoc]
        · simp [hx]

theorem walkLinks_append {B : Type} (fs : FS B) (fuel : Nat) (cur : Loc)
    (xs ys : List String) :
    walkLinks fs fuel cur (xs ++ ys) =
      match walkLinks fs fuel cur xs with
      | .ok (l, f) => walkLinks fs f l ys
      | .error e => .error e := by
  induction fuel generalizing cur xs with
  | zero =>
    simp only [walkLinks, walkSeg_append]
    cases hs : walkSeg fs cur xs with
    | done l => rfl
    | link c cs => rfl
    | fail e => rfl
  | succ n ih =>
    simp only [walkLinks, walkSeg_append]
    cases hs : walkSeg fs cur xs with
    | done l => rfl
    | link c cs => exact ih c cs
    | fail e => rfl

theorem stepLoc_single (cur : Loc) (n : String) (h : SingleComponent n) :
    stepLoc cur n = cur ++ [n] := by
  simp [stepLoc, h.2.1, h.2.2.1]

theorem walkLinks_done {B : Type} (fs : FS B) (fuel : Nat) (cur : Loc) (cs : List String)
    (l : Loc) (h : walkSeg fs cur cs = .done l) : walkLinks fs fuel cur cs = .ok (l, fuel) := by
  cases fuel with
  | zero => simp [walkLinks, h]
  | succ n => simp [walkLinks, h]

theorem walkLinks_fail {B : Type} (fs : FS B) (fuel : Nat) (cur : Loc) (cs : List String)
    (e : Errno) (h : walkSeg fs cur cs = .fail e) : walkLinks fs fuel cur cs = .error e := by
  cases fuel with
  | zero => simp [walkLinks, h]
  | succ n => simp [walkLinks, h]

/-- One step into an entry that is not a symbolic link. -/
theorem walkLinks_single_dir {B : Type} (fs : FS B) (fuel : Nat) (loc : Loc) (n : String)
    (mode : Nat) (hs : SingleComponent n) (hl : lookupLoc fs.nodes loc = some (.dir mode))
    (hx : ownerExec mode = true)
    (hn : ∀ t, lookupLoc fs.nodes (loc ++ [n]) ≠ some (.symlink t)) :
    walkLinks fs fuel loc [n] = .ok (loc ++ [n], fuel) := by
  apply walkLinks_done
  simp only [walkSeg, hl, hx, if_true, stepLoc_single loc n hs]

/-- A successful step from `loc` says that `loc` is a searchable directory
and that the entry is a symbolic link or the location reached. -/
theorem walkLinks_single_ok {B : Type} (fs : FS B) (fuel : Nat) (loc : Loc) (n : String)
    (hs : SingleComponent n) (r : Loc × Nat) (h : walkLinks fs fuel loc [n] = .ok r) :
    ∃ mode, lookupLoc fs.nodes loc = some (.dir mode) ∧ ownerExec mode = true
      ∧ ((∃ t, lookupLoc fs.nodes (loc ++ [n]) = some (.symlink t)) ∨ r.1 = loc ++ [n]) := by
  have hseg : walkSeg fs loc [n] =
      match lookupLoc fs.nodes loc with
      | none => .fail .ENOENT
      | some (.file _ _) => .fail .ENOTDIR
      | some (.symlink _) => .fail .ENOTDIR
      | some (.dir mode) =>
        if ownerExec mode then
          match lookupLoc fs.nodes (loc ++ [n]) with
          | some (.symlink target) =>
            if target = "" then .fail .ENOENT
            else .link (if isRooted target then [] else loc) (pathComps target ++ [])
          | _ => .done (loc ++ [n])
        else .fail .EACCES := by
    simp only [walkSeg, stepLoc_single loc n hs]
  cases hl : lookupLoc fs.nodes loc with
  | none =>
    rw [hl] at hseg
    rw [walkLinks_fail fs fuel loc [n] _ hseg] at h
    cases h
  | some node =>
    rw [hl] at hseg
    cases node with
    | file m d => rw [walkLinks_fail fs fuel loc [n] _ hseg] at h; cases h
    | symlink t => rw [walkLinks_fail fs fuel loc [n] _ hseg] at h; cases h
    | dir m =>
      simp only at hseg
      by_cases hx : ownerExec m = true
      · simp only [hx, if_true] at hseg
        refine ⟨m, rfl, hx, ?_⟩
        cases hnode : lookupLoc fs.nodes (loc ++ [n]) with
        | none =>
          rw [hnode] at hseg
          rw [walkLinks_done fs fuel loc [n] _ hseg] at h
          simp only [Except.ok.injEq] at h
          exact Or.inr (by rw [← h])
        | some node2 =>
          rw [hnode] at hseg
          cases node2 with
          | symlink t => exact Or.inl ⟨t, rfl⟩
          | file m2 d2 =>
            rw [walkLinks_done fs fuel loc [n] _ hseg] at h
            simp only [Except.ok.injEq] at h
            exact Or.inr (by rw [← h])
          | dir m2 =>
            rw [walkLinks_done fs fuel loc [n] _ hseg] at h
            simp only [Except.ok.injEq] at h
            exact Or.inr (by rw [← h])
      · simp only [hx, if_false, Bool.false_eq_true] at hseg
        rw [walkLinks_fail fs fuel loc [n] _ hseg] at h
        cases h

theorem walkLinks_single_absent {B : Type} (fs : FS B) (fuel : Nat) (loc : Loc) (n : String)
    (hl : lookupLoc fs.nodes loc = none) : walkLinks fs fuel loc [n] = .error .ENOENT := by
  apply walkLinks_fail
  simp only [walkSeg, hl]

theorem data_ne_nil (p : String) (h : p ≠ "") : p.data ≠ [] := by
  intro e
  apply h
  cases p
  simp_all

theorem resolveFuel_append {B : Type} (fs : FS B) (v n : String) (hv : v ≠ "")
    (h : SingleComponent n) (hnul : (Char.ofNat 0) ∉ n.data) :
    resolveFuel fs (v ++ "/" ++ n) =
      match resolveFuel fs v with
      | .ok (l, f) => walkLinks fs f l [n]
      | .error e => .error e := by
  have hdata : (v ++ "/" ++ n).data = v.data ++ '/' :: n.data := by
    simp [String.data_append]
  have hne : v ++ "/" ++ n ≠ "" := by
    intro e
    have := congrArg String.data e
    rw [hdata] at this
    simp at this
  have hr : isRooted (v ++ "/" ++ n) = isRooted v := by
    rw [String.append_assoc, isRooted_append _ _ hv]
  have hslash : (Char.ofNat 0) ≠ '/' := by decide
  unfold resolveFuel
  by_cases hz : (Char.ofNat 0) ∈ v.data
  · simp [hdata, hz]
  · have hz2 : (Char.ofNat 0) ∉ (v ++ "/" ++ n).data := by
      rw [hdata]
      simp only [List.mem_append, List.mem_cons, not_or]
      exact ⟨hz, hslash, hnul⟩
    simp only [hz, hz2, hne, hv, if_false, hr]
    unfold pathComps
    rw [pathElems_append _ _ h.2.2.2, List.filter_append]
    have : List.filter (fun e => decide (e ≠ "")) [n] = [n] := by simp [h.1]
    rw [this, walkLinks_append]

theorem resolve_append_nul {B : Type} (fs : FS B) (v n : String)
    (hnul : (Char.ofNat 0) ∈ n.data) : resolve fs (v ++ "/" ++ n) = .error .EINVAL := by
  have hdata : (v ++ "/" ++ n).data = v.data ++ '/' :: n.data := by
    simp [String.data_append]
  unfold resolve resolveFuel
  simp [hdata, hnul]

theorem resolve_ok {B : Type} (fs : FS B) (path : String) (loc : Loc) :
    resolve fs path = .ok loc ↔ ∃ f, resolveFuel fs path = .ok (loc, f) := by
  unfold resolve
  cases hr : resolveFuel fs path with
  | error e => simp
  | ok r =>
    obtain ⟨l, f⟩ := r
    simp

theorem resolve_error {B : Type} (fs : FS B) (path : String) (e : Errno) :
    resolve fs path = .error e ↔ resolveFuel fs path = .error e := by
  unfold resolve
  cases hr : resolveFuel fs path with
  | error e2 => simp
  | ok r =>
    obtain ⟨l, f⟩ := r
    simp

theorem lookupLoc_cons {B : Type} (nodes : List (Loc × Node B)) (k loc : Loc) (n : Node B) :
    lookupLoc ((k, n) :: nodes) loc = if k = loc then some n else lookupLoc nodes loc := rfl

/-- Binding a file at a location that held no directory and no link keeps
every segment of a walk that did not fail. -/
theorem walkSeg_after_write {B : Type} (fs : FS B) (loc : Loc) (m : Nat) (d : B)
    (hdir : ∀ mode, lookupLoc fs.nodes loc ≠ some (.dir mode))
    (hlink : ∀ t, lookupLoc fs.nodes loc ≠ some (.symlink t))
    (cur : Loc) (cs : List String) (hok : ∀ e, walkSeg fs cur cs ≠ .fail e) :
    walkSeg { fs with nodes := (loc, .file m d) :: fs.nodes } cur cs = walkSeg fs cur cs := by
  induction cs generalizing cur with
  | nil => rfl
  | cons c rest ih =>
    simp only [walkSeg] at hok ⊢
    rw [lookupLoc_cons, lookupLoc_cons]
    by_cases hk : loc = cur
    · subst hk
      cases hl : lookupLoc fs.nodes loc with
      | none => rw [hl] at hok; exact absurd rfl (hok _)
      | some node =>
        cases node with
        | file m2 d2 => simp
        | dir m2 => exact absurd hl (hdir m2)
        | symlink t => exact absurd hl (hlink t)
    · simp only [hk, if_false]
      cases hl : lookupLoc fs.nodes cur with
      | none => rfl
      | some node =>
        rw [hl] at hok
        cases node with
        | file m2 d2 => rfl
        | symlink t => rfl
        | dir m2 =>
          simp only at hok ⊢
          by_cases hx : ownerExec m2 = true
          · simp only [hx, if_true] at hok ⊢
            by_cases hk2 : loc = stepLoc cur c
            · subst hk2
              simp only [if_true]
              cases hl2 : lookupLoc fs.nodes (stepLoc cur c) with
              | none =>
                rw [hl2] at hok
                exact ih _ hok
              | some node2 =>
                cases node2 with
                | dir m3 => exact absurd hl2 (hdir m3)
                | symlink t => exact absurd hl2 (hlink t)
                | file m3 d3 =>
                  rw [hl2] at hok
                  exact ih _ hok
            · simp only [hk2, if_false]
              cases hl2 : lookupLoc fs.nodes (stepLoc cur c) with
              | none =>
                rw [hl2] at hok
                exact ih _ hok
              | some node2 =>
                rw [hl2] at hok
                cases node2 with
                | symlink t => rfl
                | dir m3 => exact ih _ hok
                | file m3 d3 => exact ih _ hok
          · simp [hx]

theorem walkLinks_after_write {B : Type} (fs : FS B) (loc : Loc) (m : Nat) (d : B)
    (hdir : ∀ mode, lookupLoc fs.nodes loc ≠ some (.dir mode))
    (hlink : ∀ t, lookupLoc fs.nodes loc ≠ some (.symlink t))
    (fuel : Nat) (cur : Loc) (cs : List String) (r : Loc × Nat)
    (h : walkLinks fs fuel cur cs = .ok r) :
    walkLinks { fs with nodes := (loc, .file m d) :: fs.nodes } fuel cur cs = .ok r := by
  induction fuel generalizing cur cs with
  | zero =>
    simp only [walkLinks] at h ⊢
    have hok : ∀ e, walkSeg fs cur cs ≠ .fail e := by
      intro e he
      rw [he] at h
      cases h
    rw [walkSeg_after_write fs loc m d hdir hlink cur cs hok]
    exact h
  | succ n ih =>
    simp only [walkLinks] at h ⊢
    have hok : ∀ e, walkSeg fs cur cs ≠ .fail e := by
      intro e he
      rw [he] at h
      cases h
    rw [walkSeg_after_write fs loc m d hdir hlink cur cs hok]
    cases hs : walkSeg fs cur cs with
    | done l => rw [hs] at h; exact h
    | fail e => exact absurd hs (hok e)
    | link c2 cs2 =>
      rw [hs] at h
      exact ih c2 cs2 h

theorem resolve_after_write {B : Type} (fs : FS B) (loc : Loc) (m : Nat) (d : B)
    (hdir : ∀ mode, lookupLoc fs.nodes loc ≠ some (.dir mode))
    (hlink : ∀ t, lookupLoc fs.nodes loc ≠ some (.symlink t))
    (path : String) (l : Loc) (h : resolve fs path = .ok l) :
    resolve { fs with nodes := (loc, .file m d) :: fs.nodes } path = .ok l := by
  rw [resolve_ok] at h ⊢
  obtain ⟨f, hf⟩ := h
  refine ⟨f, ?_⟩
  unfold resolveFuel at hf ⊢
  by_cases hz : (Char.ofNat 0) ∈ path.data
  · simp [hz] at hf
  · by_cases he : path = ""
    · simp [hz, he] at hf
    · simp only [hz, he, if_false] at hf ⊢
      exact walkLinks_after_write fs loc m d hdir hlink _ _ _ _ hf

/-- What a successful `writeFile` did: it bound a file with the new content
at the location of the path, keeping the mode of an existing file and giving
a new file the requested mode minus the umask. -/
theorem writeFile_ok {B : Type} (fs fs2 : FS B) (path : String) (data : B) (perm : Nat)
    (h : writeFile fs path data perm = .ok fs2) :
    ∃ loc mode, resolve fs path = .ok loc
      ∧ fs2 = { fs with nodes := (loc, .file mode data) :: fs.nodes }
      ∧ (∀ mo, lookupLoc fs.nodes loc ≠ some (.dir mo))
      ∧ (∀ t, lookupLoc fs.nodes loc ≠ some (.symlink t))
      ∧ ((∃ old, lookupLoc fs.nodes loc = some (.file mode old) ∧ ownerWrite mode = true)
          ∨ (lookupLoc fs.nodes loc = none ∧ mode = createMode perm fs.umask)) := by
  unfold writeFile at h
  cases hr : resolve fs path with
  | error e => rw [hr] at h; simp at h
  | ok loc =>
    rw [hr] at h
    simp only at h
    cases hl : lookupLoc fs.nodes loc with
    | some node =>
      rw [hl] at h
      cases node with
      | dir m => simp at h
      | symlink t => simp at h
      | file m old =>
        by_cases hw : ownerWrite m = true
        · simp only [hw, if_true, Except.ok.injEq] at h
          exact ⟨loc, m, rfl, h.symm, by simp [hl], by simp [hl], Or.inl ⟨old, hl, hw⟩⟩
        · simp [hw] at h
    | none =>
      rw [hl] at h
      simp only at h
      cases hp : lookupLoc fs.nodes loc.dropLast with
      | none => rw [hp] at h; simp at h
      | some pnode =>
        rw [hp] at h
        cases pnode with
        | file m old => simp at h
        | symlink t => simp at h
        | dir pm =>
          simp only at h
          split at h
          · simp only [Except.ok.injEq] at h
            exact ⟨loc, _, rfl, h.symm, by simp [hl], by simp [hl], Or.inr ⟨hl, rfl⟩⟩
          · simp at h

theorem stat_after_write {B : Type} (fs : FS B) (path : String) (loc : Loc) (mode : Nat)
    (data : B) (hr : resolve fs path = .ok loc)
    (hdir : ∀ mo, lookupLoc fs.nodes loc ≠ some (.dir mo))
    (hlink : ∀ t, lookupLoc fs.nodes loc ≠ some (.symlink t)) :
    stat { fs with nodes := (loc, .file mode data) :: fs.nodes } path
      = .ok (.file mode data) := by
  unfold stat
  rw [resolve_after_write fs loc mode data hdir hlink path loc hr]
  simp [lookupLoc]

/-! ## Lemmas on the serializer -/

theorem Join_underRoot (root x : String) (h : SingleComponent x) :
    Join [root, x] = underRoot root x := by
  unfold underRoot
  by_cases he : cleanElems root = []
  · simp only [he, if_true]
    by_cases hr : root = ""
    · subst hr
      have hx : x ≠ "" := h.1
      have h1 : Join ["", x] = Clean x := by
        simp [Join, List.dropWhile, hx, joinSlash]
      have h2 : isRooted x = false := isRooted_of_no_slash x h.2.2.2
      have h3 : pathElems x = [x] := by
        simp [pathElems, splitSlash_of_not_mem _ h.2.2.2]
      have h4 : cleanElems x = [x] := by
        simp [cleanElems, h3, cleanStep_single _ _ _ h]
      have h5 : isRooted "" = false := rfl
      rw [h1]
      simp only [Clean, h2, h4, h5, joinSlash]
      simp
    · have h1 : Join [root, x] = Clean (root ++ "/" ++ x) := by
        simp [Join, List.dropWhile, hr, joinSlash]
      have hroot : isRooted (root ++ "/" ++ x) = isRooted root := by
        rw [String.append_assoc, isRooted_append _ _ hr]
      rw [h1]
      unfold Clean
      rw [hroot, cleanElems_append root x hr h, he]
      simp [joinSlash]
  · simp only [he, if_false]
    exact Join_pair root x he h

theorem collectVaults_elems (acc : StrSlice) (entries : List DirEntry) :
    (collectVaults acc entries).elems
      = acc.elems ++ (entries.filter (fun e => e.isDir)).map (fun e => e.name) := by
  induction entries generalizing acc with
  | nil => simp [collectVaults]
  | cons e rest ih =>
    by_cases hd : e.isDir = true
    · rw [collectVaults]
      simp only [hd, if_true]
      rw [ih]
      simp [goAppend, StrSlice.elems, hd]
    · have hd2 : e.isDir = false := by simpa using hd
      rw [collectVaults]
      simp only [hd2, Bool.false_eq_true, if_false]
      rw [ih]
      simp [hd2]

theorem mem_insertName (n x : String) (l : List String) :
    x ∈ insertName n l ↔ x = n ∨ x ∈ l := by
  induction l with
  | nil => simp [insertName]
  | cons m ms ih =>
    by_cases hle : nameLe n.data m.data = true
    · simp [insertName, hle]
    · simp only [insertName, hle, if_false, List.mem_cons, ih, Bool.false_eq_true]
      tauto

theorem mem_sortNames (x : String) (l : List String) : x ∈ sortNames l ↔ x ∈ l := by
  induction l with
  | nil => simp [sortNames]
  | cons n ns ih => simp [sortNames, mem_insertName, ih]

theorem childName_eq_some (loc k : Loc) (n : String) :
    childName loc k = some n ↔ k = loc ++ [n] ∧ validName n = true := by
  unfold childName
  cases hk : k.reverse with
  | nil =>
    have : k = [] := by simpa using hk
    subst this
    simp
  | cons m r =>
    have hk2 : k = r.reverse ++ [m] := by
      have := congrArg List.reverse hk
      simpa using this
    subst hk2
    by_cases hc : r.reverse = loc ∧ validName m = true
    · simp only [hc, and_self, if_true, Option.some.injEq]
      obtain ⟨hc1, hc2⟩ := hc
      constructor
      · intro hmn
        subst hmn
        exact ⟨rfl, hc2⟩
      · rintro ⟨h1, _⟩
        have := List.append_inj_right' h1 rfl
        simpa using this
    · simp only [hc, if_false]
      constructor
      · intro h; cases h
      · rintro ⟨h1, h2⟩
        exfalso
        apply hc
        have ha := List.append_inj_left' h1 rfl
        have hb := List.append_inj_right' h1 rfl
        simp only [List.cons.injEq, and_true] at hb
        subst hb
        exact ⟨ha, h2⟩

theorem lookupLoc_isSome {B : Type} (nodes : List (Loc × Node B)) (loc : Loc) :
    (∃ node, lookupLoc nodes loc = some node) ↔ ∃ kn ∈ nodes, kn.1 = loc := by
  induction nodes with
  | nil =>
    constructor
    · rintro ⟨node, h⟩
      cases h
    · rintro ⟨kn, hmem, _⟩
      cases hmem
  | cons kn rest ih =>
    obtain ⟨k, n⟩ := kn
    by_cases hk : k = loc
    · constructor
      · intro _
        exact ⟨(k, n), List.mem_cons_self _ _, hk⟩
      · intro _
        exact ⟨n, by simp [lookupLoc, hk]⟩
    · have hl : lookupLoc ((k, n) :: rest) loc = lookupLoc rest loc := by
        simp [lookupLoc, hk]
      rw [hl, ih]
      constructor
      · rintro ⟨kn, hmem, he⟩
        exact ⟨kn, List.mem_cons_of_mem _ hmem, he⟩
      · rintro ⟨kn, hmem, he⟩
        rcases List.mem_cons.1 hmem with hmem | hmem
        · subst hmem; exact absurd he hk
        · exact ⟨kn, hmem, he⟩

theorem mem_entryNames {B : Type} (fs : FS B) (loc : Loc) (n : String) :
    n ∈ entryNames fs loc ↔
      validName n = true ∧ ∃ node, lookupLoc fs.nodes (loc ++ [n]) = some node := by
  unfold entryNames
  rw [mem_sortNames, List.mem_dedup, List.mem_filterMap, lookupLoc_isSome]
  constructor
  · rintro ⟨kn, hmem, hc⟩
    rw [childName_eq_some] at hc
    exact ⟨hc.2, kn, hmem, hc.1⟩
  · rintro ⟨hv, kn, hmem, hk⟩
    exact ⟨kn, hmem, (childName_eq_some _ _ _).2 ⟨hk, hv⟩⟩

theorem readDir_ok {B : Type} (fs : FS B) (path : String) (entries : List DirEntry)
    (h : readDir fs path = .ok entries) :
    ∃ loc mode, resolve fs path = .ok loc ∧ lookupLoc fs.nodes loc = some (.dir mode)
      ∧ ownerRead mode = true ∧ entries = entriesAt fs loc := by
  unfold readDir at h
  cases hr : resolve fs path with
  | error e => rw [hr] at h; simp at h
  | ok loc =>
    rw [hr] at h
    simp only at h
    cases hl : lookupLoc fs.nodes loc with
    | none => rw [hl] at h; simp at h
    | some node =>
      rw [hl] at h
      cases node with
      | file m d => simp at h
      | symlink t => simp at h
      | dir m =>
        by_cases hrd : ownerRead m = true
        · simp only [hrd, if_true, Except.ok.injEq] at h
          exact ⟨loc, m, rfl, hl, hrd, h.symm⟩
        · simp [hrd] at h

theorem mem_entriesAt {B : Type} (fs : FS B) (loc : Loc) (n : String) :
    ({ name := n, isDir := true } : DirEntry) ∈ entriesAt fs loc ↔
      validName n = true ∧ ∃ m, lookupLoc fs.nodes (loc ++ [n]) = some (.dir m) := by
  unfold entriesAt
  rw [List.mem_map]
  constructor
  · rintro ⟨x, hx, he⟩
    simp only [DirEntry.mk.injEq] at he
    obtain ⟨rfl, hd⟩ := he
    obtain ⟨hv, node, hn⟩ := (mem_entryNames fs loc x).1 hx
    refine ⟨hv, ?_⟩
    rw [hn] at hd
    cases node with
    | file m d => simp [Node.isDir] at hd
    | symlink t => simp [Node.isDir] at hd
    | dir m => exact ⟨m, hn⟩
  · rintro ⟨hv, m, hm⟩
    refine ⟨n, (mem_entryNames fs loc n).2 ⟨hv, _, hm⟩, ?_⟩
    simp [hm, Node.isDir]

theorem validName_iff (n : String) :
    validName n = true ↔ SingleComponent n ∧ (Char.ofNat 0) ∉ n.data := by
  simp [validName, SingleComponent, and_assoc]

theorem vaultsDirPath_ne_empty (root : String) : vaultsDirPath root ≠ "" := by
  obtain ⟨p, hp, hpe⟩ := vaultsDirPath_eq root
  apply ne_empty_of_cleanElems
  rw [hp, cleanElems_Clean]
  exact hpe

theorem stat_ok {B : Type} (fs : FS B) (path : String) (node : Node B) :
    stat fs path = .ok node ↔
      ∃ loc, resolve fs path = .ok loc ∧ lookupLoc fs.nodes loc = some node := by
  unfold stat
  cases hr : resolve fs path with
  | error e => simp
  | ok loc =>
    cases hl : lookupLoc fs.nodes loc with
    | none => simp [hl]
    | some n => simp [hl]

theorem stat_enoent {B : Type} (fs : FS B) (path : String)
    (h : stat fs path = .error .ENOENT) :
    resolve fs path = .error .ENOENT
      ∨ ∃ loc, resolve fs path = .ok loc ∧ lookupLoc fs.nodes loc = none := by
  unfold stat at h
  cases hr : resolve fs path with
  | error e =>
    rw [hr] at h
    simp only [Except.error.injEq] at h
    exact Or.inl (by rw [h])
  | ok loc =>
    rw [hr] at h
    simp only at h
    cases hl : lookupLoc fs.nodes loc with
    | none => exact Or.inr ⟨loc, rfl, hl⟩
    | some node => rw [hl] at h; cases h

theorem VaultExists_iff {B : Type} (fs : FS B) (root name : String) :
    VaultExists fs root name = true ↔
      ∃ mode, stat fs (GetVaultDir root name) = .ok (.dir mode) := by
  unfold VaultExists GetVaultDir
  cases hs : stat fs (Join [root, "vaults", name]) with
  | error e => simp [hs]
  | ok node =>
    cases node with
    | file m d => simp [hs, Node.isDir]
    | symlink t => simp [hs, Node.isDir]
    | dir m => simp [hs, Node.isDir]

/-- A directory entry that a listing of the searchable vaults container
shows is a vault that `VaultExists` finds. -/
theorem vaultExists_of_entry {B : Type} (fs : FS B) (root n : String) (loc : Loc) (mode : Nat)
    (hr : resolve fs (vaultsDirPath root) = .ok loc)
    (hl : lookupLoc fs.nodes loc = some (.dir mode)) (hx : ownerExec mode = true)
    (hmem : ({ name := n, isDir := true } : DirEntry) ∈ entriesAt fs loc) :
    VaultExists fs root n = true := by
  obtain ⟨hv, m, hm⟩ := (mem_entriesAt fs loc n).1 hmem
  obtain ⟨hs, hnul⟩ := (validName_iff n).1 hv
  obtain ⟨f, hf⟩ := (resolve_ok fs _ loc).1 hr
  rw [VaultExists_iff]
  refine ⟨m, ?_⟩
  rw [stat_ok]
  refine ⟨loc ++ [n], ?_, hm⟩
  rw [resolve_ok]
  refine ⟨f, ?_⟩
  rw [GetVaultDir_single root n hs,
    resolveFuel_append fs _ n (vaultsDirPath_ne_empty root) hs hnul, hf]
  simp only
  exact walkLinks_single_dir fs f loc n mode hs hl hx (by simp [hm])

/-- A vault that `VaultExists` finds under a one-element name is an entry
of the vaults container, which is then a searchable directory: a directory
entry, or a symbolic link. -/
theorem entry_of_vaultExists {B : Type} (fs : FS B) (root n : String)
    (hs : SingleComponent n) (h : VaultExists fs root n = true) :
    ∃ loc mode, resolve fs (vaultsDirPath root) = .ok loc
      ∧ lookupLoc fs.nodes loc = some (.dir mode) ∧ ownerExec mode = true
      ∧ ((∃ t, lookupLoc fs.nodes (loc ++ [n]) = some (.symlink t))
          ∨ ({ name := n, isDir := true } : DirEntry) ∈ entriesAt fs loc) := by
  rw [VaultExists_iff] at h
  obtain ⟨m, hst⟩ := h
  rw [stat_ok] at hst
  obtain ⟨l2, hres, hlk⟩ := hst
  rw [GetVaultDir_single root n hs] at hres
  by_cases hnul : (Char.ofNat 0) ∈ n.data
  · rw [resolve_append_nul fs _ n hnul] at hres
    cases hres
  · obtain ⟨f2, hf2⟩ := (resolve_ok fs _ l2).1 hres
    rw [resolveFuel_append fs _ n (vaultsDirPath_ne_empty root) hs hnul] at hf2
    cases hr : resolveFuel fs (vaultsDirPath root) with
    | error e => rw [hr] at hf2; cases hf2
    | ok r =>
      obtain ⟨loc, f⟩ := r
      rw [hr] at hf2
      simp only at hf2
      obtain ⟨mode, hl, hx, hcase⟩ := walkLinks_single_ok fs f loc n hs _ hf2
      refine ⟨loc, mode, (resolve_ok fs _ loc).2 ⟨f, hr⟩, hl, hx, ?_⟩
      rcases hcase with hsym | heq
      · exact Or.inl hsym
      · simp only at heq
        subst heq
        exact Or.inr ((mem_entriesAt fs loc n).2 ⟨(validName_iff n).2 ⟨hs, hnul⟩, m, hlk⟩)

theorem readDir_eq {B : Type} (fs : FS B) (path : String) (loc : Loc) (mode : Nat)
    (hr : resolve fs path = .ok loc) (hl : lookupLoc fs.nodes loc = some (.dir mode)) :
    readDir fs path = if ownerRead mode then .ok (entriesAt fs loc) else .error .EACCES := by
  unfold readDir
  rw [hr]
  simp only
  rw [hl]

theorem readDir_of_resolve_enoent {B : Type} (fs : FS B) (p : String)
    (h : resolve fs p = .error .ENOENT) : readDir fs p = .error .ENOENT := by
  unfold readDir
  rw [h]

theorem resolve_under_absent {B : Type} (fs : FS B) (c : String) (hc : c ≠ "")
    (h : stat fs c = .error .ENOENT) :
    resolve fs (c ++ "/" ++ "vaults") = .error .ENOENT := by
  have hnul : (Char.ofNat 0) ∉ "vaults".data := by decide
  rw [resolve_error, resolveFuel_append fs c "vaults" hc single_vaults hnul]
  rcases stat_enoent fs c h with he | ⟨loc, hok, hnone⟩
  · rw [(resolve_error fs c _).1 he]
  · obtain ⟨f, hf⟩ := (resolve_ok fs c loc).1 hok
    rw [hf]
    exact walkLinks_single_absent fs f loc "vaults" hnone

/-- Listing the vaults container of a root that does not exist fails with
`ENOENT`. -/
theorem readDir_absent_root {B : Type} (fs : FS B) (root : String)
    (h : stat fs (Clean root) = .error .ENOENT) :
    readDir fs (vaultsDirPath root) = .error .ENOENT := by
  have hv : vaultsDirPath root = underRoot root "vaults" :=
    Join_underRoot root "vaults" single_vaults
  apply readDir_of_resolve_enoent
  rw [hv]
  unfold underRoot
  by_cases he : cleanElems root = []
  · simp only [he, if_true]
    have hc : Clean root = if isRooted root then "/" else "." := by
      unfold Clean
      simp [he, joinSlash]
    by_cases hroot : isRooted root = true
    · simp only [hroot, if_true] at hc ⊢
      rw [hc] at h
      have a2 : ("/" ++ "vaults" : String) = "/vaults" := by decide
      rw [a2]
      have s1 : resolveFuel fs "/" = walkLinks fs maxSymlinks [] [] := by
        unfold resolveFuel
        have d1 : (Char.ofNat 0) ∉ "/".data := by decide
        have f1 : ("/" : String) ≠ "" := by decide
        have c1 : isRooted "/" = true := by decide
        have b1 : pathComps "/" = [] := by decide
        simp only [d1, f1, c1, b1, if_false, if_true]
      have s2 : resolveFuel fs "/vaults" = walkLinks fs maxSymlinks [] ["vaults"] := by
        unfold resolveFuel
        have d1 : (Char.ofNat 0) ∉ "/vaults".data := by decide
        have f1 : ("/vaults" : String) ≠ "" := by decide
        have c1 : isRooted "/vaults" = true := by decide
        have b1 : pathComps "/vaults" = ["vaults"] := by decide
        simp only [d1, f1, c1, b1, if_false, if_true]
      have s3 : walkLinks fs maxSymlinks [] [] = .ok ([], maxSymlinks) :=
        walkLinks_done fs _ [] [] [] rfl
      rw [resolve_error, s2]
      rcases stat_enoent fs "/" h with he2 | ⟨loc, hok, hnone⟩
      · rw [resolve_error, s1, s3] at he2
        cases he2
      · obtain ⟨f, hf⟩ := (resolve_ok fs "/" loc).1 hok
        rw [s1, s3] at hf
        simp only [Except.ok.injEq, Prod.mk.injEq] at hf
        rw [← hf.1] at hnone
        exact walkLinks_single_absent fs _ [] "vaults" hnone
    · have hroot2 : isRooted root = false := by simpa using hroot
      simp only [hroot2, Bool.false_eq_true, if_false] at hc ⊢
      rw [hc] at h
      have s1 : resolveFuel fs "." = walkLinks fs maxSymlinks fs.cwd ["."] := by
        unfold resolveFuel
        have d1 : (Char.ofNat 0) ∉ ".".data := by decide
        have f1 : ("." : String) ≠ "" := by decide
        have c1 : isRooted "." = false := by decide
        have b1 : pathComps "." = ["."] := by decide
        simp only [d1, f1, c1, b1, if_false, Bool.false_eq_true]
      have s2 : resolveFuel fs "vaults" = walkLinks fs maxSymlinks fs.cwd ["vaults"] := by
        unfold resolveFuel
        have d1 : (Char.ofNat 0) ∉ "vaults".data := by decide
        have f1 : ("vaults" : String) ≠ "" := by decide
        have c1 : isRooted "vaults" = false := by decide
        have b1 : pathComps "vaults" = ["vaults"] := by decide
        simp only [d1, f1, c1, b1, if_false, Bool.false_eq_true]
      rw [resolve_error, s2]
      cases hl : lookupLoc fs.nodes fs.cwd with
      | none => exact walkLinks_single_absent fs _ fs.cwd "vaults" hl
      | some node =>
        exfalso
        have hstep : stepLoc fs.cwd "." = fs.cwd := by simp [stepLoc]
        cases node with
        | file m d =>
          have hw : walkLinks fs maxSymlinks fs.cwd ["."] = .error .ENOTDIR :=
            walkLinks_fail fs _ _ _ _ (by simp only [walkSeg, hl])
          rcases stat_enoent fs "." h with he2 | ⟨loc, hok, _⟩
          · rw [resolve_error, s1, hw] at he2; cases he2
          · obtain ⟨f, hf⟩ := (resolve_ok fs "." loc).1 hok
            rw [s1, hw] at hf; cases hf
        | symlink t =>
          have hw : walkLinks fs maxSymlinks fs.cwd ["."] = .error .ENOTDIR :=
            walkLinks_fail fs _ _ _ _ (by simp only [walkSeg, hl])
          rcases stat_enoent fs "." h with he2 | ⟨loc, hok, _⟩
          · rw [resolve_error, s1, hw] at he2; cases he2
          · obtain ⟨f, hf⟩ := (resolve_ok fs "." loc).1 hok
            rw [s1, hw] at hf; cases hf
        | dir m =>
          by_cases hx : ownerExec m = true
          · have hw : walkLinks fs maxSymlinks fs.cwd ["."] = .ok (fs.cwd, maxSymlinks) :=
              walkLinks_done fs _ _ _ _ (by simp only [walkSeg, hl, hx, if_true, hstep])
            rcases stat_enoent fs "." h with he2 | ⟨loc, hok, hnone⟩
            · rw [resolve_error, s1, hw] at he2; cases he2
            · obtain ⟨f, hf⟩ := (resolve_ok fs "." loc).1 hok
              rw [s1, hw] at hf
              simp only [Except.ok.injEq, Prod.mk.injEq] at hf
              rw [← hf.1, hl] at hnone
              cases hnone
          · have hw : walkLinks fs maxSymlinks fs.cwd ["."] = .error .EACCES :=
              walkLinks_fail fs _ _ _ _ (by simp only [walkSeg, hl]; simp [hx])
            rcases stat_enoent fs "." h with he2 | ⟨loc, hok, _⟩
            · rw [resolve_error, s1, hw] at he2; cases he2
            · obtain ⟨f, hf⟩ := (resolve_ok fs "." loc).1 hok
              rw [s1, hw] at hf; cases hf
  · simp only [he, if_false]
    apply resolve_under_absent _ _ _ h
    apply ne_empty_of_cleanElems
    rw [cleanElems_Clean]
    exact he

/-! ## Save and load -/

theorem stat_of_write_new {B : Type} (fs fs2 : FS B) (path : String) (data : B) (perm : Nat)
    (h : writeFile fs path data perm = .ok fs2)
    (hs : stat fs path = .error .ENOENT) :
    stat fs2 path = .ok (.file (createMode perm fs.umask) data) := by
  obtain ⟨loc, mode, hres, hfs, hnd, hnl, hcase⟩ := writeFile_ok fs fs2 path data _ h
  subst hfs
  rw [stat_after_write fs path loc mode data hres hnd hnl]
  rcases hcase with ⟨old, hold, _⟩ | ⟨_, hmode⟩
  · unfold stat at hs
    rw [hres] at hs
    simp only at hs
    rw [hold] at hs
    cases hs
  · rw [hmode]

theorem SaveConfig_ok {B : Type} (Y : YamlText B) (fs fs2 : FS B) (d : String) (c : Config)
    (h : SaveConfig Y fs d c = .ok fs2) :
    writeFile fs (configPath d) (Y.emit (encodeConfig c)) 0o644 = .ok fs2 := by
  unfold SaveConfig marshalConfig at h
  simp only at h
  unfold configPath
  cases hw : writeFile fs (Join [d, "config.yaml"]) (Y.emit (encodeConfig c)) 0o644 with
  | error e => rw [hw] at h; cases h
  | ok f => rw [hw] at h; simp only [Except.ok.injEq] at h; rw [h]

theorem SaveVaultConfig_ok {B : Type} (Y : YamlText B) (fs fs2 : FS B) (d : String)
    (v : VaultConfig) (h : SaveVaultConfig Y fs d v = .ok fs2) :
    writeFile fs (vaultConfigPath d) (Y.emit (encodeVaultConfig v)) 0o644 = .ok fs2 := by
  unfold SaveVaultConfig marshalVaultConfig at h
  simp only at h
  unfold vaultConfigPath
  cases hw : writeFile fs (Join [d, "vault.yaml"]) (Y.emit (encodeVaultConfig v)) 0o644 with
  | error e => rw [hw] at h; cases h
  | ok f => rw [hw] at h; simp only [Except.ok.injEq] at h; rw [h]

theorem createMode_0644 (umask : Nat) : createMode 0o644 umask &&& 0o133 = 0 := by
  unfold createMode
  rw [Nat.land_comm (0o644), Nat.land_assoc]
  have : (0o644 &&& 0o133 : Nat) = 0 := by decide
  rw [this, Nat.and_zero]

/-- C2 (amended): a file that `SaveConfig` or `SaveVaultConfig` creates gets
the mode 0644 minus the umask, so never a write or execute bit for group or
world and no execute bit for the owner (mode & 0o133 == 0), and exactly 0644
under an empty umask; the mode 0644 passed to the write does grant read
access to group and world (0o644 & 0o077 == 0o044). -/
theorem save_creates_with_mode_0644 {B : Type} (Y : YamlText B) (fs : FS B) (d : String) :
    (∀ (c : Config) (fs2 : FS B), SaveConfig Y fs d c = .ok fs2 →
        stat fs (configPath d) = .error .ENOENT →
        ∃ data, stat fs2 (configPath d) = .ok (.file (createMode 0o644 fs.umask) data))
    ∧ (∀ (v : VaultConfig) (fs2 : FS B), SaveVaultConfig Y fs d v = .ok fs2 →
        stat fs (vaultConfigPath d) = .error .ENOENT →
        ∃ data, stat fs2 (vaultConfigPath d) = .ok (.file (createMode 0o644 fs.umask) data))
    ∧ createMode 0o644 fs.umask &&& 0o133 = 0
    ∧ createMode 0o644 0 = 0o644
    ∧ (0o644 &&& 0o077 : Nat) = 0o044 := by
  refine ⟨?_, ?_, createMode_0644 _, by decide, by decide⟩
  · intro c fs2 hs hst
    exact ⟨_, stat_of_write_new fs fs2 _ _ _ (SaveConfig_ok Y fs fs2 d c hs) hst⟩
  · intro v fs2 hs hst
    exact ⟨_, stat_of_write_new fs fs2 _ _ _ (SaveVaultConfig_ok Y fs fs2 d v hs) hst⟩

/-- Witness of C2: the config file created in an empty root. -/
theorem save_creates_with_mode_0644_witness :
    ∃ fs2, SaveConfig plainText emptyRootFS "r" ⟨"1", "me"⟩ = .ok fs2
      ∧ ∃ data, stat fs2 (configPath "r") = .ok (.file (createMode 0o644 0) data) :=
  ⟨_, rfl, (save_creates_with_mode_0644 plainText emptyRootFS "r").1 _ _ rfl (by decide)⟩

/-- Counterexample to C2 as stated: under an empty umask both saves create
their file with mode 0644, which has the group and world read bits set. -/
theorem save_mode_counterexample :
    savedConfigMode plainText emptyRootFS "r" ⟨"1", "me"⟩ = some 0o644
    ∧ savedVaultConfigMode plainText emptyRootFS "r" ⟨"alpha", "", none, "t0", ""⟩
        = some 0o644
    ∧ (0o644 &&& 0o077 : Nat) ≠ 0 := by
  decide

/-! ## Serializer -/

theorem LoadConfig_classified {B : Type} (Y : YamlText B) (fs : FS B) (d : String) :
    LoadClassified (configPath d) (readFile fs (configPath d)) (unmarshalConfig Y)
      (LoadConfig Y fs d) := by
  unfold LoadClassified LoadConfig configPath
  dsimp only
  cases hr : readFile fs (Join [d, "config.yaml"]) with
  | error errno =>
    refine ⟨_, rfl, rfl, ?_, ?_⟩
    · simp [WrappedError.isNotExist]
    · simp [WrappedError.kind]
  | ok data =>
    dsimp only
    cases hu : unmarshalConfig Y data with
    | error err => exact ⟨_, rfl, rfl, rfl, rfl⟩
    | ok cfg => rfl

theorem LoadVaultConfig_classified {B : Type} (Y : YamlText B) (fs : FS B) (d : String) :
    LoadClassified (vaultConfigPath d) (readFile fs (vaultConfigPath d))
      (unmarshalVaultConfig Y) (LoadVaultConfig Y fs d) := by
  unfold LoadClassified LoadVaultConfig vaultConfigPath
  dsimp only
  cases hr : readFile fs (Join [d, "vault.yaml"]) with
  | error errno =>
    refine ⟨_, rfl, rfl, ?_, ?_⟩
    · simp [WrappedError.isNotExist]
    · simp [WrappedError.kind]
  | ok data =>
    dsimp only
    cases hu : unmarshalVaultConfig Y data with
    | error err => exact ⟨_, rfl, rfl, rfl, rfl⟩
    | ok cfg => rfl

theorem readFile_absent {B : Type} (fs : FS B) (path : String) (loc : Loc)
    (hr : resolve fs path = .ok loc) (hl : lookupLoc fs.nodes loc = none) :
    readFile fs path = .error .ENOENT := by
  unfold readFile
  simp only [hr, hl]

theorem readFile_unreadable {B : Type} (fs : FS B) (path : String) (loc : Loc) (mode : Nat)
    (data : B) (hr : resolve fs path = .ok loc)
    (hl : lookupLoc fs.nodes loc = some (.file mode data)) (hm : ownerRead mode = false) :
    readFile fs path = .error .EACCES := by
  unfold readFile
  simp [hr, hl, hm]

/-- C6: `LoadConfig` and `LoadVaultConfig` fail in three kinds a caller
tells apart.  A failed read gives an error wrapping the path error, which
still answers `errors.Is(err, fs.ErrNotExist)` and is of kind not-found
exactly when the file does not exist (`ENOENT`), and is of kind read for any
other error number; a file that is read but does not decode gives an error
of kind deserialization; a value is returned only when both steps succeed.
A path that resolves to a location without a node is the not-found case and
a file without the owner read bit is a read error. -/
theorem load_failures_classified {B : Type} (Y : YamlText B) (fs : FS B) (d : String) :
    LoadClassified (configPath d) (readFile fs (configPath d)) (unmarshalConfig Y)
        (LoadConfig Y fs d)
    ∧ LoadClassified (vaultConfigPath d) (readFile fs (vaultConfigPath d))
        (unmarshalVaultConfig Y) (LoadVaultConfig Y fs d)
    ∧ (∀ path loc, resolve fs path = .ok loc → lookupLoc fs.nodes loc = none →
        readFile fs path = .error .ENOENT)
    ∧ (∀ path loc mode data, resolve fs path = .ok loc →
        lookupLoc fs.nodes loc = some (.file mode data) → ownerRead mode = false →
        readFile fs path = .error .EACCES) :=
  ⟨LoadConfig_classified Y fs d, LoadVaultConfig_classified Y fs d,
    fun path loc hr hl => readFile_absent fs path loc hr hl,
    fun path loc mode data hr hl hm => readFile_unreadable fs path loc mode data hr hl hm⟩

/-- Witness of C6: a missing config file, a config file that is not YAML
and a vault config file without read permission. -/
theorem load_failures_classified_witness :
    readFile scenarioFS "r/config.yaml" = .error .ENOENT
    ∧ (∃ e, LoadConfig plainText scenarioFS "r" = .error e ∧ e.kind = .notFound
        ∧ e.isNotExist = true)
    ∧ (∃ e, LoadConfig plainText brokenFS "r" = .error e ∧ e.kind = .deserialization)
    ∧ readFile brokenFS "r/vaults/alpha/vault.yaml" = .error .EACCES
    ∧ (∃ e, LoadVaultConfig plainText brokenFS "r/vaults/alpha" = .error e
        ∧ e.kind = .read ∧ e.isNotExist = false) := by
  refine ⟨?_, ?_, ?_, ?_, ?_⟩
  · exact (load_failures_classified plainText scenarioFS "r").2.2.1 "r/config.yaml"
      ["home", "r", "config.yaml"] (by decide) (by decide)
  · exact ⟨_, rfl, by decide, by decide⟩
  · exact ⟨_, rfl, by decide⟩
  · exact (load_failures_classified plainText brokenFS "r").2.2.2 "r/vaults/alpha/vault.yaml"
      ["home", "r", "vaults", "alpha", "vault.yaml"] 0 none (by decide) (by decide) (by decide)
  · exact ⟨_, rfl, by decide, by decide⟩

/-! ## Path layout -/

theorem cleanElems_GetVaultDir (root name : String) (h : SingleComponent name) :
    cleanElems (GetVaultDir root name) = cleanElems (vaultsDirPath root) ++ [name] := by
  obtain ⟨q, hq, hqe⟩ := vaultsDirPath_eq root
  have hqne := ne_empty_of_cleanElems q hqe
  rw [GetVaultDir_single root name h, hq, ← Clean_append q name hqe h,
    cleanElems_Clean, cleanElems_Clean, cleanElems_append q name hqne h]

/-- C9 (amended): the path functions are pure and total, and for every root
and every vault name that is a single path element (non-empty, not `.` or
`..`, no separator) the vault directory is the cleaned `<root>/vaults`
followed by the name as its last element, its config file is that path
followed by `vault.yaml`, the keys directory is the cleaned `<root>/keys`
and the global config file the cleaned `<root>/config.yaml`. -/
theorem path_layout (root name : String) (h : SingleComponent name) :
    GetVaultDir root name = underRoot root "vaults" ++ "/" ++ name
    ∧ (cleanElems (GetVaultDir root name)).getLast? = some name
    ∧ (cleanElems (GetVaultDir root name)).dropLast = cleanElems (underRoot root "vaults")
    ∧ vaultConfigPath (GetVaultDir root name)
        = underRoot root "vaults" ++ "/" ++ name ++ "/" ++ "vault.yaml"
    ∧ GetKeysDir root = underRoot root "keys"
    ∧ configPath root = underRoot root "config.yaml" := by
  have hv : vaultsDirPath root = underRoot root "vaults" :=
    Join_underRoot root "vaults" single_vaults
  refine ⟨?_, ?_, ?_, ?_, ?_, ?_⟩
  · rw [GetVaultDir_single root name h, hv]
  · rw [cleanElems_GetVaultDir root name h]; simp
  · rw [cleanElems_GetVaultDir root name h, hv]; simp
  · rw [vaultConfigPath_GetVaultDir root name h, hv]
  · exact Join_underRoot root "keys" (by decide)
  · exact Join_underRoot root "config.yaml" (by decide)

/-- Witness of C9: the layout under the root `.secrets`. -/
theorem path_layout_witness :
    GetVaultDir ".secrets" "alpha" = ".secrets/vaults/alpha"
    ∧ vaultConfigPath (GetVaultDir ".secrets" "alpha") = ".secrets/vaults/alpha/vault.yaml"
    ∧ GetKeysDir ".secrets" = ".secrets/keys"
    ∧ configPath ".secrets" = ".secrets/config.yaml" := by
  have h := path_layout ".secrets" "alpha" (by decide)
  have e1 : underRoot ".secrets" "vaults" = ".secrets/vaults" := by decide
  have e2 : underRoot ".secrets" "keys" = ".secrets/keys" := by decide
  have e3 : underRoot ".secrets" "config.yaml" = ".secrets/config.yaml" := by decide
  rw [e1, e2, e3] at h
  exact ⟨h.1, h.2.2.2.1, h.2.2.2.2.1, h.2.2.2.2.2⟩

/-- Counterexample to C9 as stated: for the names `..`, the empty string and
`../../x` the result of `GetVaultDir` is the root itself, the vaults
container and a sibling of the root, none of them a path whose last element
is the name under the vaults container. -/
theorem path_layout_counterexample :
    GetVaultDir ".secrets" ".." = ".secrets"
    ∧ GetVaultDir ".secrets" "" = ".secrets/vaults"
    ∧ GetVaultDir ".secrets" "../../x" = "x"
    ∧ GetVaultDir ".secrets" ".." ≠ vaultsDirPath ".secrets" ++ "/" ++ ".."
    ∧ vaultConfigPath (GetVaultDir ".secrets" "..") = ".secrets/vault.yaml" := by
  decide

/-! ## Listing vaults -/

theorem nodup_insertName (n : String) (l : List String) (hn : n ∉ l) (hl : l.Nodup) :
    (insertName n l).Nodup := by
  induction l with
  | nil => simp [insertName]
  | cons m ms ih =>
    have hnm : n ≠ m := fun e => hn (by simp [e])
    have hnms : n ∉ ms := fun e => hn (by simp [e])
    rw [List.nodup_cons] at hl
    by_cases hle : nameLe n.data m.data = true
    · simp only [insertName, hle, if_true]
      exact List.nodup_cons.2 ⟨hn, List.nodup_cons.2 hl⟩
    · simp only [insertName, hle, if_false, Bool.false_eq_true]
      refine List.nodup_cons.2 ⟨?_, ih hnms hl.2⟩
      rw [mem_insertName]
      rintro (e | e)
      · exact hnm e.symm
      · exact hl.1 e

theorem nodup_sortNames (l : List String) (hl : l.Nodup) : (sortNames l).Nodup := by
  induction l with
  | nil => simp [sortNames]
  | cons n ns ih =>
    rw [List.nodup_cons] at hl
    exact nodup_insertName n _ (by rw [mem_sortNames]; exact hl.1) (ih hl.2)

theorem nodup_entryNames {B : Type} (fs : FS B) (loc : Loc) : (entryNames fs loc).Nodup :=
  nodup_sortNames _ (List.nodup_dedup _)

theorem entriesAt_names {B : Type} (fs : FS B) (loc : Loc) :
    (entriesAt fs loc).map (fun e => e.name) = entryNames fs loc := by
  unfold entriesAt
  rw [List.map_map]
  conv_rhs => rw [← List.map_id (entryNames fs loc)]
  rfl

theorem mem_collectVaults (entries : List DirEntry) (n : String) :
    n ∈ (collectVaults none entries).elems
      ↔ ({ name := n, isDir := true } : DirEntry) ∈ entries := by
  rw [collectVaults_elems]
  have : StrSlice.elems none = [] := rfl
  rw [this, List.nil_append, List.mem_map]
  constructor
  · rintro ⟨e, he, rfl⟩
    rw [List.mem_filter] at he
    obtain ⟨nm, d⟩ := e
    simp only at he
    obtain ⟨hm, hd⟩ := he
    subst hd
    exact hm
  · intro he
    exact ⟨_, List.mem_filter.2 ⟨he, by simp⟩, rfl⟩

theorem ListVaults_of_readDir {B : Type} (fs : FS B) (root : String) (entries : List DirEntry)
    (h : readDir fs (vaultsDirPath root) = .ok entries) :
    ListVaults fs root = .ok (collectVaults none entries) := by
  unfold vaultsDirPath at h
  unfold ListVaults
  simp only [h]

theorem entry_isDir_unique {B : Type} (fs : FS B) (loc : Loc) (n : String)
    (h1 : ({ name := n, isDir := false } : DirEntry) ∈ entriesAt fs loc)
    (h2 : ({ name := n, isDir := true } : DirEntry) ∈ entriesAt fs loc) : False := by
  unfold entriesAt at h1 h2
  rw [List.mem_map] at h1 h2
  obtain ⟨x, _, hx⟩ := h1
  obtain ⟨y, _, hy⟩ := h2
  simp only [DirEntry.mk.injEq] at hx hy
  obtain ⟨rfl, hx2⟩ := hx
  obtain ⟨rfl, hy2⟩ := hy
  rw [hx2] at hy2
  cases hy2

/-- C4: when the vaults container can be read, `ListVaults` succeeds and
returns exactly the names of its directory entries: each of them once, in
the order the entries were read, and no name of an entry that is not a
directory.  For the scenario of the specification (directories `alpha` and
`beta`, file `readme.txt`) the result is `alpha`, `beta`. -/
theorem list_vaults_returns_directories {B : Type} (fs : FS B) (root : String)
    (entries : List DirEntry) (h : readDir fs (vaultsDirPath root) = .ok entries) :
    ∃ names, ListVaults fs root = .ok names
      ∧ names.elems = (entries.filter (fun e => e.isDir)).map (fun e => e.name)
      ∧ names.elems.Nodup
      ∧ (∀ n, n ∈ names.elems ↔ ({ name := n, isDir := true } : DirEntry) ∈ entries)
      ∧ (∀ n, ({ name := n, isDir := false } : DirEntry) ∈ entries → n ∉ names.elems)
      ∧ ListVaults scenarioFS "r" = .ok (some ["alpha", "beta"]) := by
  have helems : (collectVaults none entries).elems
      = (entries.filter (fun e => e.isDir)).map (fun e => e.name) := by
    rw [collectVaults_elems]; rfl
  have hmem : ∀ n, n ∈ (collectVaults none entries).elems
      ↔ ({ name := n, isDir := true } : DirEntry) ∈ entries :=
    fun n => mem_collectVaults entries n
  obtain ⟨loc, mode, _, _, _, hent⟩ := readDir_ok fs _ entries h
  refine ⟨collectVaults none entries, ListVaults_of_readDir fs root entries h, helems,
    ?_, hmem, ?_, by decide⟩
  · rw [helems]
    have hsub : ((entries.filter (fun e => e.isDir)).map (fun e => e.name)).Sublist
        (entries.map (fun e => e.name)) := List.Sublist.map _ (List.filter_sublist _)
    refine List.Nodup.sublist hsub ?_
    rw [hent, entriesAt_names]
    exact nodup_entryNames fs loc
  · intro n hfalse hin
    rw [hmem] at hin
    rw [hent] at hfalse hin
    exact entry_isDir_unique fs loc n hfalse hin

/-- Witness of C4: the listing of the scenario state. -/
theorem list_vaults_returns_directories_witness :
    readDir scenarioFS "r/vaults"
        = .ok [⟨"alpha", true⟩, ⟨"beta", true⟩, ⟨"readme.txt", false⟩]
    ∧ ∃ names, ListVaults scenarioFS "r" = .ok names
      ∧ names.elems = ["alpha", "beta"] ∧ "readme.txt" ∉ names.elems := by
  have hrd : readDir scenarioFS (vaultsDirPath "r")
      = .ok [⟨"alpha", true⟩, ⟨"beta", true⟩, ⟨"readme.txt", false⟩] := by decide
  obtain ⟨names, h1, h2, _, _, h5, _⟩ :=
    list_vaults_returns_directories scenarioFS "r" _ hrd
  exact ⟨by decide, names, h1, by rw [h2]; decide, h5 "readme.txt" (by decide)⟩

theorem ListVaults_cases {B : Type} (fs : FS B) (root : String) :
    (readDir fs (vaultsDirPath root) = .error .ENOENT ∧ ListVaults fs root = .ok (some []))
    ∨ (∃ errno, errno ≠ .ENOENT ∧ readDir fs (vaultsDirPath root) = .error errno
        ∧ ListVaults fs root
          = .error ⟨"failed to list vaults", .path (vaultsDirPath root) errno⟩)
    ∨ (∃ entries, readDir fs (vaultsDirPath root) = .ok entries
        ∧ ListVaults fs root = .ok (collectVaults none entries)) := by
  unfold ListVaults vaultsDirPath
  dsimp only
  cases hr : readDir fs (Join [root, "vaults"]) with
  | ok entries => exact Or.inr (Or.inr ⟨entries, rfl, rfl⟩)
  | error errno =>
    by_cases he : errno = .ENOENT
    · subst he
      exact Or.inl ⟨rfl, by simp [isNotExist]⟩
    · exact Or.inr (Or.inl ⟨errno, he, rfl, by simp [isNotExist, he]⟩)

/-- C5: `ListVaults` returns an empty sequence and no error when reading
the vaults container fails because it does not exist (`ENOENT`), which
includes a root that does not exist; when the read fails with any other
error number it returns an error wrapping that failure and no names; and
it returns an error in no other case. -/
theorem list_vaults_error_cases {B : Type} (fs : FS B) (root : String) :
    (readDir fs (vaultsDirPath root) = .error .ENOENT → ListVaults fs root = .ok (some []))
    ∧ (stat fs (Clean root) = .error .ENOENT → ListVaults fs root = .ok (some []))
    ∧ (∀ errno, errno ≠ .ENOENT → readDir fs (vaultsDirPath root) = .error errno →
        ListVaults fs root
          = .error ⟨"failed to list vaults", .path (vaultsDirPath root) errno⟩)
    ∧ (∀ e, ListVaults fs root = .error e →
        ∃ errno, errno ≠ .ENOENT ∧ readDir fs (vaultsDirPath root) = .error errno
          ∧ e = ⟨"failed to list vaults", .path (vaultsDirPath root) errno⟩) := by
  have hc := ListVaults_cases fs root
  have h1 : readDir fs (vaultsDirPath root) = .error .ENOENT →
      ListVaults fs root = .ok (some []) := by
    intro h
    rcases hc with ⟨_, h2⟩ | ⟨errno, hne, hrd, _⟩ | ⟨entries, hrd, _⟩
    · exact h2
    · rw [h] at hrd
      simp only [Except.error.injEq] at hrd
      exact absurd hrd.symm hne
    · rw [h] at hrd; cases hrd
  refine ⟨h1, fun h => h1 (readDir_absent_root fs root h), ?_, ?_⟩
  · intro errno hne h
    rcases hc with ⟨hrd, _⟩ | ⟨errno2, _, hrd, h2⟩ | ⟨entries, hrd, _⟩
    · rw [h] at hrd
      simp only [Except.error.injEq] at hrd
      exact absurd hrd hne
    · rw [h] at hrd
      simp only [Except.error.injEq] at hrd
      rw [hrd]; exact h2
    · rw [h] at hrd; cases hrd
  · intro e h
    rcases hc with ⟨_, h2⟩ | ⟨errno, hne, hrd, h2⟩ | ⟨entries, _, h2⟩
    · rw [h] at h2; cases h2
    · rw [h] at h2
      simp only [Except.error.injEq] at h2
      exact ⟨errno, hne, hrd, h2⟩
    · rw [h] at h2; cases h2

/-- Witness of C5: a root that does not exist, a root without a vaults
container and a vaults container that may not be listed. -/
theorem list_vaults_error_cases_witness :
    ListVaults scenarioFS "nowhere" = .ok (some [])
    ∧ ListVaults emptyRootFS "r" = .ok (some [])
    ∧ ListVaults searchOnlyFS "r"
        = .error ⟨"failed to list vaults", .path "r/vaults" .EACCES⟩ :=
  ⟨(list_vaults_error_cases scenarioFS "nowhere").2.1 (by decide),
   (list_vaults_error_cases emptyRootFS "r").1 (by decide),
   (list_vaults_error_cases searchOnlyFS "r").2.2.1 .EACCES (by decide) (by decide)⟩

/-! ## Vault existence -/

theorem containerSearchable_iff {B : Type} (fs : FS B) (root : String) :
    containerSearchable fs root = true ↔
      ∃ loc mode, resolve fs (vaultsDirPath root) = .ok loc
        ∧ lookupLoc fs.nodes loc = some (.dir mode) ∧ ownerExec mode = true := by
  unfold containerSearchable
  cases hs : stat fs (vaultsDirPath root) with
  | error e =>
    simp only [Bool.false_eq_true, false_iff]
    rintro ⟨loc, mode, hr, hl, _⟩
    have := (stat_ok fs _ (.dir mode)).2 ⟨loc, hr, hl⟩
    rw [hs] at this; cases this
  | ok node =>
    obtain ⟨loc, hr, hl⟩ := (stat_ok fs _ node).1 hs
    cases node with
    | file m d =>
      simp only [Bool.false_eq_true, false_iff]
      rintro ⟨loc2, mode, hr2, hl2, _⟩
      rw [hr] at hr2
      simp only [Except.ok.injEq] at hr2
      subst hr2
      rw [hl] at hl2; cases hl2
    | symlink t =>
      simp only [Bool.false_eq_true, false_iff]
      rintro ⟨loc2, mode, hr2, hl2, _⟩
      rw [hr] at hr2
      simp only [Except.ok.injEq] at hr2
      subst hr2
      rw [hl] at hl2; cases hl2
    | dir m =>
      simp only
      constructor
      · intro hx; exact ⟨loc, m, hr, hl, hx⟩
      · rintro ⟨loc2, mode, hr2, hl2, hx⟩
        rw [hr] at hr2
        simp only [Except.ok.injEq] at hr2
        subst hr2
        rw [hl] at hl2
        simp only [Option.some.injEq, Node.dir.injEq] at hl2
        rw [hl2]; exact hx

theorem isSymlinkEntry_false {B : Type} (fs : FS B) (root name : String) (loc : Loc)
    (hr : resolve fs (vaultsDirPath root) = .ok loc)
    (h : isSymlinkEntry fs root name = false) :
    ∀ t, lookupLoc fs.nodes (loc ++ [name]) ≠ some (.symlink t) := by
  intro t ht
  unfold isSymlinkEntry at h
  simp only [hr, ht] at h
  cases h

theorem containerEntries_eq {B : Type} (fs : FS B) (root : String) (loc : Loc) (mode : Nat)
    (hr : resolve fs (vaultsDirPath root) = .ok loc)
    (hl : lookupLoc fs.nodes loc = some (.dir mode)) :
    containerEntries fs root = entriesAt fs loc := by
  unfold containerEntries
  simp only [hr, hl]

theorem containerEntries_of_readDir {B : Type} (fs : FS B) (root : String)
    (entries : List DirEntry) (hrd : readDir fs (vaultsDirPath root) = .ok entries) :
    containerEntries fs root = entries := by
  obtain ⟨loc, mode, hr, hl, _, hent⟩ := readDir_ok fs _ entries hrd
  rw [containerEntries_eq fs root loc mode hr hl, hent]

theorem vaultExists_iff_entry {B : Type} (fs : FS B) (root name : String)
    (hs : SingleComponent name) (hsym : isSymlinkEntry fs root name = false) :
    VaultExists fs root name = true
      ↔ (containerSearchable fs root = true
          ∧ ({ name := name, isDir := true } : DirEntry) ∈ containerEntries fs root) := by
  constructor
  · intro hv
    obtain ⟨loc, mode, hr, hl, hx, hcase⟩ := entry_of_vaultExists fs root name hs hv
    refine ⟨(containerSearchable_iff fs root).2 ⟨loc, mode, hr, hl, hx⟩, ?_⟩
    rw [containerEntries_eq fs root loc mode hr hl]
    rcases hcase with ⟨t, ht⟩ | hmem
    · exact absurd ht (isSymlinkEntry_false fs root name loc hr hsym t)
    · exact hmem
  · rintro ⟨hx, hmem⟩
    obtain ⟨loc, mode, hr, hl, hx2⟩ := (containerSearchable_iff fs root).1 hx
    rw [containerEntries_eq fs root loc mode hr hl] at hmem
    exact vaultExists_of_entry fs root name loc mode hr hl hx2 hmem

theorem vaultExists_absent_root {B : Type} (fs : FS B) (root name : String)
    (hs : SingleComponent name) (h : stat fs (Clean root) = .error .ENOENT) :
    VaultExists fs root name = false := by
  cases hv : VaultExists fs root name with
  | false => rfl
  | true =>
    exfalso
    obtain ⟨loc, mode, hr, hl, _, _⟩ := entry_of_vaultExists fs root name hs hv
    have h1 := readDir_absent_root fs root h
    rw [readDir_eq fs _ loc mode hr hl] at h1
    by_cases hm : ownerRead mode = true
    · simp [hm] at h1
    · simp [hm] at h1

/-- C3 (amended): `VaultExists(root, name)` never fails and returns true
exactly when the path `GetVaultDir(root, name)` resolves, symbolic links
followed, to a directory, every error of the lookup giving false.  For a
name that is a single path element this is false when the root does not
exist, and, when the entry of that name in the vaults container is not a
symbolic link, it is true exactly when the vaults container can be searched
and has a directory entry of that name (the entries being those a listing
of the container returns). -/
theorem vault_exists_spec {B : Type} (fs : FS B) (root name : String) :
    (VaultExists fs root name = true
        ↔ ∃ mode, stat fs (GetVaultDir root name) = .ok (.dir mode))
    ∧ (∀ errno, stat fs (GetVaultDir root name) = .error errno →
        VaultExists fs root name = false)
    ∧ (SingleComponent name → stat fs (Clean root) = .error .ENOENT →
        VaultExists fs root name = false)
    ∧ (SingleComponent name → isSymlinkEntry fs root name = false →
        (VaultExists fs root name = true
          ↔ (containerSearchable fs root = true
              ∧ ({ name := name, isDir := true } : DirEntry) ∈ containerEntries fs root)))
    ∧ (∀ entries, readDir fs (vaultsDirPath root) = .ok entries →
        containerEntries fs root = entries) := by
  refine ⟨VaultExists_iff fs root name, ?_, vaultExists_absent_root fs root name, ?_, ?_⟩
  · intro errno h
    unfold VaultExists
    unfold GetVaultDir at h
    simp only [h]
  · intro hs hsym
    exact vaultExists_iff_entry fs root name hs hsym
  · intro entries hrd
    exact containerEntries_of_readDir fs root entries hrd

/-- Witness of C3: the scenario of the specification, a vaults container
that may be searched but not listed, and a missing root. -/
theorem vault_exists_spec_witness :
    VaultExists scenarioFS "r" "alpha" = true
    ∧ VaultExists scenarioFS "r" "gamma" = false
    ∧ VaultExists scenarioFS "r" "readme.txt" = false
    ∧ VaultExists searchOnlyFS "r" "alpha" = true
    ∧ VaultExists searchOnlyFS "r" "gamma" = false
    ∧ VaultExists scenarioFS "nowhere" "alpha" = false := by
  refine ⟨?_, ?_, ?_, ?_, ?_, ?_⟩
  · exact ((vault_exists_spec scenarioFS "r" "alpha").2.2.2.1 (by decide) (by decide)).2
      (by decide)
  · have h := (vault_exists_spec scenarioFS "r" "gamma").2.2.2.1 (by decide) (by decide)
    cases hv : VaultExists scenarioFS "r" "gamma" with
    | false => rfl
    | true => exact absurd (h.1 hv) (by decide)
  · have h := (vault_exists_spec scenarioFS "r" "readme.txt").2.2.2.1 (by decide) (by decide)
    cases hv : VaultExists scenarioFS "r" "readme.txt" with
    | false => rfl
    | true => exact absurd (h.1 hv) (by decide)
  · exact ((vault_exists_spec searchOnlyFS "r" "alpha").2.2.2.1 (by decide) (by decide)).2
      (by decide)
  · have h := (vault_exists_spec searchOnlyFS "r" "gamma").2.2.2.1 (by decide) (by decide)
    cases hv : VaultExists searchOnlyFS "r" "gamma" with
    | false => rfl
    | true => exact absurd (h.1 hv) (by decide)
  · exact (vault_exists_spec scenarioFS "nowhere" "alpha").2.2.1 (by decide) (by decide)

/-- Counterexample to C3 as stated: in the scenario state `VaultExists` is
true for the empty name, for `.`, for `..` and for `alpha/../beta`, none of
which names a directory entry of the vaults container; with a root that
does not exist it is true for the name `../..`; it is true for an entry
that is a symbolic link to a directory, which is not a directory entry;
and it is false for the directory entry `alpha` of a vaults container of
mode 0444, which can be listed but not searched. -/
theorem vault_exists_counterexample :
    VaultExists scenarioFS "r" "" = true ∧ hasVaultDirEntry scenarioFS "r" "" = false
    ∧ VaultExists scenarioFS "r" "." = true ∧ hasVaultDirEntry scenarioFS "r" "." = false
    ∧ VaultExists scenarioFS "r" ".." = true ∧ hasVaultDirEntry scenarioFS "r" ".." = false
    ∧ VaultExists scenarioFS "r" "alpha/../beta" = true
    ∧ hasVaultDirEntry scenarioFS "r" "alpha/../beta" = false
    ∧ stat scenarioFS "nowhere" = .error .ENOENT
    ∧ VaultExists scenarioFS "nowhere" "../.." = true
    ∧ VaultExists linkedFS "r" "shared" = true
    ∧ hasVaultDirEntry linkedFS "r" "shared" = false
    ∧ VaultExists listOnlyFS "r" "alpha" = false
    ∧ hasVaultDirEntry listOnlyFS "r" "alpha" = true := by
  decide

/-- C10 (amended): `VaultExists(root, name)` is decided by looking at
exactly the path `GetVaultDir(root, name)`; when the vaults container may be
searched, every name a successful `ListVaults(root)` returns has
`VaultExists` true; and whenever `ListVaults(root)` succeeds, every
single-element name with `VaultExists` true whose entry in the vaults
container is not a symbolic link is in its result. -/
theorem vault_index_consistent {B : Type} (fs : FS B) (root : String) :
    (∀ name, VaultExists fs root name
        = (match stat fs (GetVaultDir root name) with
           | .ok info => info.isDir
           | .error _ => false))
    ∧ (∀ names, ListVaults fs root = .ok names → containerSearchable fs root = true →
        ∀ n, n ∈ names.elems → VaultExists fs root n = true)
    ∧ (∀ names, ListVaults fs root = .ok names →
        ∀ n, SingleComponent n → isSymlinkEntry fs root n = false →
          VaultExists fs root n = true → n ∈ names.elems) := by
  have hc := ListVaults_cases fs root
  refine ⟨fun _ => rfl, ?_, ?_⟩
  · intro names hlv hx n hn
    rcases hc with ⟨_, h2⟩ | ⟨errno, _, _, h2⟩ | ⟨entries, hrd, h2⟩
    · rw [hlv] at h2
      simp only [Except.ok.injEq] at h2
      subst h2
      simp [StrSlice.elems] at hn
    · rw [hlv] at h2; cases h2
    · rw [hlv] at h2
      simp only [Except.ok.injEq] at h2
      subst h2
      rw [mem_collectVaults] at hn
      obtain ⟨loc, mode, hr, _, _, hent⟩ := readDir_ok fs _ entries hrd
      subst hent
      obtain ⟨loc2, mode2, hr2, hl2, hx2⟩ := (containerSearchable_iff fs root).1 hx
      rw [hr] at hr2
      simp only [Except.ok.injEq] at hr2
      subst hr2
      exact vaultExists_of_entry fs root n loc mode2 hr hl2 hx2 hn
  · intro names hlv n hs hsym hv
    obtain ⟨loc, mode, hr, hl, _, hcase⟩ := entry_of_vaultExists fs root n hs hv
    have hmem : ({ name := n, isDir := true } : DirEntry) ∈ entriesAt fs loc := by
      rcases hcase with ⟨t, ht⟩ | hmem
      · exact absurd ht (isSymlinkEntry_false fs root n loc hr hsym t)
      · exact hmem
    have hrd := readDir_eq fs _ loc mode hr hl
    rcases hc with ⟨h1, _⟩ | ⟨errno, _, _, h2⟩ | ⟨entries, h1, h2⟩
    · rw [hrd] at h1
      by_cases hm : ownerRead mode = true
      · simp [hm] at h1
      · simp [hm] at h1
    · rw [hlv] at h2; cases h2
    · rw [hlv] at h2
      simp only [Except.ok.injEq] at h2
      subst h2
      rw [mem_collectVaults]
      rw [hrd] at h1
      by_cases hm : ownerRead mode = true
      · simp only [hm, if_true, Except.ok.injEq] at h1
        rw [← h1]; exact hmem
      · simp [hm] at h1

/-- Witness of C10: in the scenario state the listed names exist and the
existing vault `beta` is listed. -/
theorem vault_index_consistent_witness :
    VaultExists scenarioFS "r" "alpha" = true
    ∧ "beta" ∈ StrSlice.elems (some ["alpha", "beta"]) :=
  ⟨(vault_index_consistent scenarioFS "r").2.1 (some ["alpha", "beta"]) (by decide)
      (by decide) "alpha" (by decide),
   (vault_index_consistent scenarioFS "r").2.2 (some ["alpha", "beta"]) (by decide)
      "beta" (by decide) (by decide) (by decide)⟩

/-- Counterexample to C10 as stated: with a vaults container of mode 0444
`ListVaults` succeeds and returns `alpha`, for which `VaultExists` is
false; and for the entry `shared`, a symbolic link to a directory,
`VaultExists` is true while the successful `ListVaults` returns only
`alpha`. -/
theorem vault_index_counterexample :
    ListVaults listOnlyFS "r" = .ok (some ["alpha"])
    ∧ VaultExists listOnlyFS "r" "alpha" = false
    ∧ VaultExists linkedFS "r" "shared" = true
    ∧ ListVaults linkedFS "r" = .ok (some ["alpha"]) := by
  decide

end SecretsCli
